import Mathlib

/-
Verification development for the "Align UV Islands by Longest Edge" Blender add-on
(src/align_uv_islands_by_longest_edge.py).

Shallow embedding conventions:
* A loop carries one UV coordinate; a face is its ordered cycle of loop UVs plus
  its selection flag (`Face`).  A mesh (the bmesh view) is its ordered face list
  plus the presence flag of the active UV layer (`BMesh`); faces are identified
  by their index in that list, standing in for Python object identity.
* Coordinates are a linearly ordered type `α`; the island-building code only
  compares and orders coordinates, so it is embedded generically (instantiated
  at `ℚ` for executable checks).  The geometric core (lengths, angles, rotation)
  uses `ℝ`, the idealisation of the float arithmetic of the source.
* Python exceptions (`raise RuntimeError`) become `Except String`.
* `_face_uv_edge_keys` is embedded at its only call site's tolerance `tol = 0.0`
  (the `_build_islands` call uses the default), i.e. the exact-match branch.
-/

namespace AlignUV

/-- A face of the bmesh: the ordered cyclic list of its loops' UV coordinates
and the face's selection flag (`f.select`). -/
structure Face (α : Type) where
  loops : List (α × α)
  select : Bool
deriving DecidableEq

/-- The bmesh data the add-on reads: the ordered face list and whether an
active UV layer exists (`bm.loops.layers.uv.active is not None`);
UV coordinates themselves are stored inline in `Face.loops`. -/
structure BMesh (α : Type) where
  faces : List (Face α)
  hasUV : Bool
deriving DecidableEq

/-- Source `_active_uv_layer`: returns the active UV layer or raises
`RuntimeError("No active UV layer")`.  The layer itself carries no extra data
in this embedding (UVs live in the faces), so success is `Unit`. -/
def _active_uv_layer {α : Type} (bm : BMesh α) : Except String Unit :=
  if bm.hasUV then Except.ok () else Except.error "No active UV layer"

/-- Python tuple comparison `(a.x, a.y) < (b.x, b.y)`: lexicographic order on
coordinate pairs. -/
def pairLt {α : Type} [LinearOrder α] (a b : α × α) : Prop :=
  a.1 < b.1 ∨ (a.1 = b.1 ∧ a.2 < b.2)

instance {α : Type} [LinearOrder α] (a b : α × α) : Decidable (pairLt a b) := by
  unfold pairLt
  infer_instance

/-- Order-independent normalisation of a UV edge, as in `_face_uv_edge_keys`
(`if (a.x, a.y) < (b.x, b.y): key = (a, b) else: key = (b, a)`) and in the
dedup key `tuple(sorted(((u.x, u.y), (v.x, v.y))))` of
`_island_longest_edge_uv` (both place the lexicographically smaller endpoint
first, and coincide). -/
def norm_key {α : Type} [LinearOrder α] (a b : α × α) : (α × α) × (α × α) :=
  if pairLt a b then (a, b) else (b, a)

/-- The UV edges of a face: `loops[i]` paired with `loops[(i + 1) % n]` for all
`i`, realised by zipping the loop list with its rotation by one. -/
def face_edges {α : Type} (f : Face α) : List ((α × α) × (α × α)) :=
  f.loops.zip (f.loops.rotate 1)

/-- Source `_face_uv_edge_keys` at the default tolerance `tol = 0.0` (the only
tolerance used in this file): the normalised UV-edge keys of all edges of a
face. -/
def _face_uv_edge_keys {α : Type} [LinearOrder α] (f : Face α) :
    List ((α × α) × (α × α)) :=
  (face_edges f).map fun e => norm_key e.1 e.2

/-- `edge_map.setdefault(key, []).append(f)`: append face index `i` to the list
stored at `key`, creating the entry (at the end, in insertion order) if the key
is new. -/
def addEdge {α : Type} [LinearOrder α]
    (m : List (((α × α) × (α × α)) × List ℕ)) (key : (α × α) × (α × α))
    (i : ℕ) : List (((α × α) × (α × α)) × List ℕ) :=
  match m with
  | [] => [(key, [i])]
  | e :: rest =>
    if e.1 = key then (e.1, e.2 ++ [i]) :: rest else e :: addEdge rest key i

/-- The `edge_map` loop of `_build_islands`: for every (index, face) pair, file
each of its edge keys. -/
def buildEdgeMap {α : Type} [LinearOrder α] (faces : List (ℕ × Face α)) :
    List (((α × α) × (α × α)) × List ℕ) :=
  faces.foldl
    (fun m p => (_face_uv_edge_keys p.2).foldl (fun m key => addEdge m key p.1) m)
    []

/-- The ordered pairs produced by the nested `for i ... for j in range(i+1, ...)`
loop over one key's face list: both `(fi, fj)` and `(fj, fi)` for every pair of
positions `i < j`. -/
def listPairs : List ℕ → List (ℕ × ℕ)
  | [] => []
  | x :: xs => (xs.flatMap fun y => [(x, y), (y, x)]) ++ listPairs xs

/-- The adjacency pairs of the `nbrs` construction in `_build_islands`: for
each edge-map entry whose face list has more than one element, all ordered
pairs of distinct positions. -/
def adjacency {α : Type} [LinearOrder α]
    (em : List (((α × α) × (α × α)) × List ℕ)) : List (ℕ × ℕ) :=
  em.flatMap fun e => if 1 < e.2.length then listPairs e.2 else []

/-- `nbrs[i]` as the list of second components of adjacency pairs whose first
component is `i` (the iteration order of the Python neighbour set is
immaterial: duplicates and order are absorbed by the seen-check below). -/
def nbrsOf {α : Type} [LinearOrder α]
    (em : List (((α × α) × (α × α)) × List ℕ)) (i : ℕ) : List ℕ :=
  ((adjacency em).filter fun q => q.1 == i).map Prod.snd

/-- The `for nb in nbrs[cur]:` loop of the traversal: each neighbour not yet
seen is marked seen and collected for pushing onto the stack. -/
def pushLoop (seen : Finset ℕ) (nbrs : List ℕ) : List ℕ × Finset ℕ :=
  nbrs.foldl
    (fun acc nb => if nb ∈ acc.2 then acc else (acc.1 ++ [nb], insert nb acc.2))
    ([], seen)

/-- The inner `while stack:` traversal of `_build_islands`: pop a face, add it
to the component, push its not-yet-seen neighbours (marking them seen as they
are pushed).  The `while` loop is embedded with explicit fuel;
`_build_islands` supplies fuel that provably suffices (see `dfsLoop_spec`), so
the fuel-exhausted clause is never taken there. -/
def dfsLoop (nbrs : ℕ → List ℕ) :
    ℕ → List ℕ → Finset ℕ → Finset ℕ → Finset ℕ × Finset ℕ
  | 0, _, comp, seen => (comp, seen)
  | fuel + 1, stack, comp, seen =>
    match stack with
    | [] => (comp, seen)
    | cur :: rest =>
      let p := pushLoop seen (nbrs cur)
      dfsLoop nbrs fuel (p.1 ++ rest) (insert cur comp) p.2

/-- The outer `for f in faces:` loop of `_build_islands`: each unseen face
seeds a traversal (`stack = [f]; comp = set(); seen.add(f)`) and the resulting
component is appended to the island list. -/
def islandsLoop (nbrs : ℕ → List ℕ) (fuel : ℕ) :
    List ℕ → Finset ℕ → List (Finset ℕ)
  | [], _ => []
  | f :: fs, seen =>
    if f ∈ seen then islandsLoop nbrs fuel fs seen
    else
      let r := dfsLoop nbrs fuel [f] ∅ (insert f seen)
      r.1 :: islandsLoop nbrs fuel fs r.2

/-- The selection filter of `_build_islands`:
`[f for f in bm.faces if (f.select if respect_selection else True)]`,
keeping each face with its index. -/
def selFaces {α : Type} (bm : BMesh α) (respect_selection : Bool) :
    List (ℕ × Face α) :=
  bm.faces.enum.filter fun p => if respect_selection then p.2.select else true

/-- Source `_build_islands`: islands (as sets of face indices) of the faces
passing the selection filter, connected by shared identical UV-edge keys. -/
def _build_islands {α : Type} [LinearOrder α] (bm : BMesh α)
    (respect_selection : Bool) : Except String (List (Finset ℕ)) := do
  let _ ← _active_uv_layer bm
  let faces := selFaces bm respect_selection
  if faces.isEmpty then pure []
  else
    let em := buildEdgeMap faces
    pure (islandsLoop (nbrsOf em) (faces.length + 1) (faces.map Prod.fst) ∅)

/-- One iteration of the edge scan in `_island_longest_edge_uv`: state is
`(max_len, best, seen_keys)`; skip edges whose normalised key was seen, else
record the key and replace the best edge when strictly longer
(`d.length > max_len`). -/
noncomputable def longest_step
    (st : ℝ × ((ℝ × ℝ) × (ℝ × ℝ)) × Finset ((ℝ × ℝ) × (ℝ × ℝ)))
    (e : (ℝ × ℝ) × (ℝ × ℝ)) :
    ℝ × ((ℝ × ℝ) × (ℝ × ℝ)) × Finset ((ℝ × ℝ) × (ℝ × ℝ)) :=
  let key := norm_key e.1 e.2
  if key ∈ st.2.2 then st
  else
    let seen := insert key st.2.2
    let d := (e.2.1 - e.1.1, e.2.2 - e.1.2)
    let L := Real.sqrt (d.1 ^ 2 + d.2 ^ 2)
    if st.1 < L then (L, e, seen) else (st.1, st.2.1, seen)

/-- Source `_island_longest_edge_uv`: the `(p, q)` UV coordinates of the
longest (deduplicated) edge of the island, starting from
`max_len = -1.0, best = (Vector((0,0)), Vector((1,0)))`. -/
noncomputable def _island_longest_edge_uv (isl : List (Face ℝ)) :
    (ℝ × ℝ) × (ℝ × ℝ) :=
  ((isl.flatMap face_edges).foldl longest_step (-1, ((0, 0), (1, 0)), ∅)).2.1

/-- The `uniq` dictionary of `_island_centroid_uv`: the set of distinct UV
coordinates occurring among the island's loops (duplicate loops at the same
coordinate contribute once). -/
noncomputable def island_uvs (isl : List (Face ℝ)) : Finset (ℝ × ℝ) :=
  (isl.flatMap Face.loops).toFinset

/-- Source `_island_centroid_uv`: arithmetic mean of the island's unique UV
vertex positions, `(0, 0)` when there are none (`if not uniq`). -/
noncomputable def _island_centroid_uv (isl : List (Face ℝ)) : ℝ × ℝ :=
  let uniq := island_uvs isl
  if uniq = ∅ then (0, 0)
  else
    let sx := uniq.sum fun uv => uv.1
    let sy := uniq.sum fun uv => uv.2
    let c := 1 / (uniq.card : ℝ)
    (sx * c, sy * c)

/-- The per-loop UV update of `_rotate_island`:
`rx = x*ca - y*sa; ry = x*sa + y*ca` about the pivot. -/
noncomputable def rot1 (ca sa : ℝ) (pivot uv : ℝ × ℝ) : ℝ × ℝ :=
  let x := uv.1 - pivot.1
  let y := uv.2 - pivot.2
  (x * ca - y * sa + pivot.1, x * sa + y * ca + pivot.2)

/-- Source `_rotate_island`: rotate every loop UV of every face of the island
about `pivot` by `angle_rad` (cosine and sine computed once). -/
noncomputable def _rotate_island (isl : List (Face ℝ)) (angle_rad : ℝ)
    (pivot : ℝ × ℝ) : List (Face ℝ) :=
  let ca := Real.cos angle_rad
  let sa := Real.sin angle_rad
  isl.map fun f => { f with loops := f.loops.map (rot1 ca sa pivot) }

/-- `math.atan2(y, x)`, idealised over the reals as the argument of the complex
number `x + y*I`. -/
noncomputable def atan2 (y x : ℝ) : ℝ := Complex.arg ⟨x, y⟩

/-- The alignment angle of `_align_islands_in_bmesh`:
`ang = -math.atan2(d.y, d.x)` for the longest edge `(a, b)`, `d = b - a`. -/
noncomputable def align_angle (a b : ℝ × ℝ) : ℝ :=
  -atan2 (b.2 - a.2) (b.1 - a.1)

/-- The body of the `for isl in islands:` loop of `_align_islands_in_bmesh`:
skip empty islands (`if not isl`), skip islands whose longest edge has zero
squared length, otherwise rotate about the centroid by the alignment angle and
count the island.  Returns the (possibly rotated) island and its contribution
to `total`. -/
noncomputable def align_step (isl : List (Face ℝ)) : List (Face ℝ) × ℕ :=
  if isl.isEmpty then (isl, 0)
  else
    let ab := _island_longest_edge_uv isl
    let d := (ab.2.1 - ab.1.1, ab.2.2 - ab.1.2)
    if d.1 ^ 2 + d.2 ^ 2 = 0 then (isl, 0)
    else
      let ang := align_angle ab.1 ab.2
      let pivot := _island_centroid_uv isl
      (_rotate_island isl ang pivot, 1)

/-- The `total` accumulated by `_align_islands_in_bmesh` over an island list:
only islands actually rotated contribute 1. -/
noncomputable def align_total (islands : List (List (Face ℝ))) : ℕ :=
  islands.foldl (fun total isl => total + (align_step isl).2) 0

/-- The faces of an island, realised from its face-index set (Python iterates
the set of face objects; the order is immaterial and modelled as ascending
index order). -/
def islFaces {α : Type} (bm : BMesh α) (s : Finset ℕ) : List (Face α) :=
  (s.sort (· ≤ ·)).filterMap fun i => bm.faces.get? i

/-- Source `_align_islands_in_bmesh`: check the UV layer, build the islands,
and process each one, returning the count of aligned islands.  The write-back
of the mutated UV coordinates into the host mesh (`update_edit_mesh` /
`to_mesh`) is host glue outside this core; the orchestrator consumes only the
count. -/
noncomputable def _align_islands_in_bmesh (bm : BMesh ℝ)
    (respect_selection : Bool) : Except String ℕ := do
  let _ ← _active_uv_layer bm
  let islands ← _build_islands bm respect_selection
  pure (align_total (islands.map fun s => islFaces bm s))

/-- `obj.mode` in the host: interactive edit mode or object mode. -/
inductive Mode where
  | EDIT
  | OBJECT
deriving DecidableEq

/-- A selected object: whether it is of mesh type (`o.type == 'MESH'`), its
mesh-data identity (`o.data.as_pointer()`), its interaction mode, and the
underlying mesh data shared by linked duplicates. -/
structure Obj where
  isMesh : Bool
  meshKey : ℕ
  mode : Mode
  data : BMesh ℝ

instance : Inhabited Obj := ⟨⟨false, 0, Mode.OBJECT, ⟨[], false⟩⟩⟩

/-- `groups.setdefault(key, []).append(o)` of `_groups_by_mesh`: append `o` to
the group of its mesh key, creating the group (in first-seen key order) when
new. -/
def addToGroups (groups : List (ℕ × List Obj)) (o : Obj) :
    List (ℕ × List Obj) :=
  match groups with
  | [] => [(o.meshKey, [o])]
  | g :: rest =>
    if g.1 = o.meshKey then (g.1, g.2 ++ [o]) :: rest
    else g :: addToGroups rest o

/-- Source `_groups_by_mesh`: group the mesh-type objects by mesh-data
identity, in insertion order. -/
def _groups_by_mesh (objs : List Obj) : List (List Obj) :=
  ((objs.filter fun o => o.isMesh).foldl addToGroups []).map Prod.snd

/-- The representative choice in `UV_OT_align_by_longest_edge.execute`: the
first member currently in edit mode if any (`for o in group: if o.mode ==
'EDIT': rep = o; break`), otherwise the first member (`rep = group[0]`). -/
def pickRep (group : List Obj) : Obj :=
  match group.find? fun o => o.mode == Mode.EDIT with
  | some o => o
  | none => group.headI

/-- The list of representative objects the operator processes, one per group
of `_groups_by_mesh` — exactly the objects on which `execute` calls
`process_object`. -/
def executeReps (objs : List Obj) : List Obj :=
  (_groups_by_mesh objs).map pickRep

/-- Source `process_object`: non-mesh objects contribute 0; edit mode uses the
shared edit bmesh with `respect_selection=True` (the parameter is ignored by
the source, which hardcodes the literals); object mode uses a temporary bmesh
with `respect_selection=False`. -/
noncomputable def process_object (obj : Obj) (respect_selection : Bool) :
    Except String ℕ :=
  if obj.isMesh = false then Except.ok 0
  else if obj.mode == Mode.EDIT then _align_islands_in_bmesh obj.data true
  else _align_islands_in_bmesh obj.data false

/-- Source `UV_OT_align_by_longest_edge.execute`: error when no mesh object is
selected, else process one representative per mesh-data group, accumulating
`(processed_meshes, total_islands)` — the numbers of the summary report.  A
Python exception escaping `process_object` is an `Except.error` propagated by
the fold. -/
noncomputable def execute (objs : List Obj) : Except String (ℕ × ℕ) :=
  let sel := objs.filter fun o => o.isMesh
  if sel.isEmpty then Except.error "Select at least one mesh object"
  else
    (_groups_by_mesh sel).foldlM
      (fun acc group => do
        let rep := pickRep group
        let c ← process_object rep (rep.mode == Mode.EDIT)
        pure (acc.1 + 1, acc.2 + c))
      (0, 0)

lemma mem_listPairs {l : List ℕ} {a b : ℕ} (h : (a, b) ∈ listPairs l) :
    a ∈ l ∧ b ∈ l := by
  induction l with
  | nil => simp [listPairs] at h
  | cons x xs ih =>
    simp only [listPairs, List.mem_append, List.mem_flatMap] at h
    rcases h with ⟨y, hy, hab⟩ | h
    · simp only [List.mem_cons, List.not_mem_nil, or_false,
        Prod.mk.injEq] at hab
      rcases hab with ⟨rfl, rfl⟩ | ⟨rfl, rfl⟩
      · exact ⟨List.mem_cons_self _ _, List.mem_cons_of_mem _ hy⟩
      · exact ⟨List.mem_cons_of_mem _ hy, List.mem_cons_self _ _⟩
    · exact ⟨List.mem_cons_of_mem _ (ih h).1, List.mem_cons_of_mem _ (ih h).2⟩

lemma mem_adjacency {α : Type} [LinearOrder α]
    {em : List (((α × α) × (α × α)) × List ℕ)} {i j : ℕ}
    (h : (i, j) ∈ adjacency em) : ∃ e ∈ em, j ∈ e.2 := by
  simp only [adjacency, List.mem_flatMap] at h
  obtain ⟨e, he, hij⟩ := h
  refine ⟨e, he, ?_⟩
  by_cases h1 : 1 < e.2.length
  · rw [if_pos h1] at hij
    exact (mem_listPairs hij).2
  · rw [if_neg h1] at hij
    simp at hij

lemma mem_nbrsOf {α : Type} [LinearOrder α]
    {em : List (((α × α) × (α × α)) × List ℕ)} {i j : ℕ}
    (h : j ∈ nbrsOf em i) : ∃ e ∈ em, j ∈ e.2 := by
  simp only [nbrsOf, List.mem_map, List.mem_filter] at h
  obtain ⟨q, ⟨hq, hqi⟩, rfl⟩ := h
  have : q.1 = i := by simpa using hqi
  exact mem_adjacency (i := i) (by rwa [← this, Prod.mk.eta])

lemma mem_addEdge {α : Type} [LinearOrder α]
    {m : List (((α × α) × (α × α)) × List ℕ)} {key : (α × α) × (α × α)}
    {i j : ℕ} (h : ∃ e ∈ addEdge m key i, j ∈ e.2) :
    (∃ e ∈ m, j ∈ e.2) ∨ j = i := by
  induction m with
  | nil =>
    obtain ⟨e, he, hj⟩ := h
    simp only [addEdge, List.mem_singleton] at he
    subst he
    simp only [List.mem_singleton] at hj
    exact Or.inr hj
  | cons hd tl ih =>
    obtain ⟨e, he, hj⟩ := h
    by_cases hk : hd.1 = key
    · simp only [addEdge, if_pos hk, List.mem_cons] at he
      rcases he with rfl | he
      · simp only [List.mem_append, List.mem_singleton] at hj
        rcases hj with hj | hj
        · exact Or.inl ⟨hd, List.mem_cons_self _ _, hj⟩
        · exact Or.inr hj
      · exact Or.inl ⟨e, List.mem_cons_of_mem _ he, hj⟩
    · simp only [addEdge, if_neg hk, List.mem_cons] at he
      rcases he with rfl | he
      · exact Or.inl ⟨e, List.mem_cons_self _ _, hj⟩
      · rcases ih ⟨e, he, hj⟩ with ⟨e', he', hj'⟩ | hji
        · exact Or.inl ⟨e', List.mem_cons_of_mem _ he', hj'⟩
        · exact Or.inr hji

lemma mem_foldKeys {α : Type} [LinearOrder α]
    (ks : List ((α × α) × (α × α))) {i j : ℕ} :
    ∀ m : List (((α × α) × (α × α)) × List ℕ),
      (∃ e ∈ ks.foldl (fun m key => addEdge m key i) m, j ∈ e.2) →
      (∃ e ∈ m, j ∈ e.2) ∨ j = i := by
  induction ks with
  | nil => intro m h; exact Or.inl h
  | cons k ks ih =>
    intro m h
    rcases ih (addEdge m k i) h with h' | hji
    · exact mem_addEdge h'
    · exact Or.inr hji

lemma mem_buildEdgeMap {α : Type} [LinearOrder α]
    (faces : List (ℕ × Face α)) {j : ℕ} :
    ∀ m : List (((α × α) × (α × α)) × List ℕ),
      (∃ e ∈ faces.foldl
          (fun m p =>
            (_face_uv_edge_keys p.2).foldl (fun m key => addEdge m key p.1) m)
          m, j ∈ e.2) →
      (∃ e ∈ m, j ∈ e.2) ∨ ∃ p ∈ faces, p.1 = j := by
  induction faces with
  | nil => intro m h; exact Or.inl h
  | cons p ps ih =>
    intro m h
    rcases ih _ h with h' | ⟨q, hq, hqj⟩
    · rcases mem_foldKeys _ _ h' with h'' | rfl
      · exact Or.inl h''
      · exact Or.inr ⟨p, List.mem_cons_self _ _, rfl⟩
    · exact Or.inr ⟨q, List.mem_cons_of_mem _ hq, hqj⟩

lemma nbrsOf_subset {α : Type} [LinearOrder α]
    (faces : List (ℕ × Face α)) (i : ℕ) :
    ∀ j ∈ nbrsOf (buildEdgeMap faces) i, j ∈ (faces.map Prod.fst).toFinset := by
  intro j hj
  rcases mem_buildEdgeMap faces [] (mem_nbrsOf hj) with ⟨e, he, _⟩ | ⟨p, hp, hpj⟩
  · simp at he
  · simp only [List.mem_toFinset, List.mem_map]
    exact ⟨p, hp, hpj⟩

/-- Behaviour of the neighbour loop: the final seen set is the initial one
plus exactly the pushed elements, the pushed list has no duplicates, and every
pushed element is an unseen neighbour. -/
lemma pushLoop_aux (nbrs : List ℕ) :
    ∀ (l : List ℕ) (s seen0 : Finset ℕ),
      s = seen0 ∪ l.toFinset → l.Nodup → (∀ x ∈ l, x ∉ seen0) →
      (nbrs.foldl
        (fun acc nb =>
          if nb ∈ acc.2 then acc else (acc.1 ++ [nb], insert nb acc.2))
        (l, s)).2
        = seen0 ∪ (nbrs.foldl
          (fun acc nb =>
            if nb ∈ acc.2 then acc else (acc.1 ++ [nb], insert nb acc.2))
          (l, s)).1.toFinset ∧
      (nbrs.foldl
        (fun acc nb =>
          if nb ∈ acc.2 then acc else (acc.1 ++ [nb], insert nb acc.2))
        (l, s)).1.Nodup ∧
      ∀ x ∈ (nbrs.foldl
        (fun acc nb =>
          if nb ∈ acc.2 then acc else (acc.1 ++ [nb], insert nb acc.2))
        (l, s)).1, x ∉ seen0 ∧ (x ∈ l ∨ x ∈ nbrs) := by
  induction nbrs with
  | nil =>
    intro l s seen0 hs hnd hl
    exact ⟨by simpa using hs, hnd, fun x hx => ⟨hl x hx, Or.inl hx⟩⟩
  | cons nb t ih =>
    intro l s seen0 hs hnd hl
    simp only [List.foldl_cons]
    by_cases hnb : nb ∈ s
    · rw [if_pos hnb]
      obtain ⟨h1, h2, h3⟩ := ih l s seen0 hs hnd hl
      exact ⟨h1, h2, fun x hx =>
        ⟨(h3 x hx).1, (h3 x hx).2.imp id (List.mem_cons_of_mem _)⟩⟩
    · rw [if_neg hnb]
      have hnbl : nb ∉ l := fun hmem =>
        hnb (hs ▸ Finset.mem_union_right _ (List.mem_toFinset.mpr hmem))
      have hnb0 : nb ∉ seen0 := fun hmem =>
        hnb (hs ▸ Finset.mem_union_left _ hmem)
      have hs' : insert nb s = seen0 ∪ (l ++ [nb]).toFinset := by
        rw [hs]
        ext x
        simp only [Finset.mem_insert, Finset.mem_union, List.mem_toFinset,
          List.mem_append, List.mem_singleton]
        tauto
      have hnd' : (l ++ [nb]).Nodup := by
        rw [List.nodup_append]
        exact ⟨hnd, List.nodup_singleton nb,
          by simpa [List.disjoint_right] using fun hmem => hnbl hmem⟩
      have hl' : ∀ x ∈ l ++ [nb], x ∉ seen0 := by
        intro x hx
        rcases List.mem_append.mp hx with hx | hx
        · exact hl x hx
        · rw [List.mem_singleton] at hx
          exact hx ▸ hnb0
      obtain ⟨h1, h2, h3⟩ := ih (l ++ [nb]) (insert nb s) seen0 hs' hnd' hl'
      refine ⟨h1, h2, fun x hx => ⟨(h3 x hx).1, ?_⟩⟩
      rcases (h3 x hx).2 with hx' | hx'
      · rcases List.mem_append.mp hx' with hx' | hx'
        · exact Or.inl hx'
        · rw [List.mem_singleton] at hx'
          exact Or.inr (hx' ▸ List.mem_cons_self _ _)
      · exact Or.inr (List.mem_cons_of_mem _ hx')

lemma pushLoop_spec (seen : Finset ℕ) (nbrs : List ℕ) :
    (pushLoop seen nbrs).2 = seen ∪ (pushLoop seen nbrs).1.toFinset ∧
    (pushLoop seen nbrs).1.Nodup ∧
    ∀ x ∈ (pushLoop seen nbrs).1, x ∉ seen ∧ x ∈ nbrs := by
  obtain ⟨h1, h2, h3⟩ := pushLoop_aux nbrs [] seen seen (by simp)
    List.nodup_nil (by simp)
  exact ⟨h1, h2, fun x hx =>
    ⟨(h3 x hx).1, ((h3 x hx).2).resolve_left (List.not_mem_nil x)⟩⟩

/-- Behaviour of the fuelled traversal `dfsLoop` when supplied enough fuel:
the seen set only grows, the component returned is the initial component plus
the initial stack plus exactly the newly seen faces, and everything newly seen
comes from `U` (the face universe containing the stack and all neighbour
lists). -/
theorem dfsLoop_spec (nbrs : ℕ → List ℕ) (U : Finset ℕ)
    (hn : ∀ i, ∀ j ∈ nbrs i, j ∈ U) :
    ∀ (fuel : ℕ) (stack : List ℕ) (comp seen : Finset ℕ),
      (∀ x ∈ stack, x ∈ U) →
      (U \ seen).card + stack.length ≤ fuel →
      seen ⊆ (dfsLoop nbrs fuel stack comp seen).2 ∧
      (dfsLoop nbrs fuel stack comp seen).1
        = comp ∪ stack.toFinset ∪ ((dfsLoop nbrs fuel stack comp seen).2 \ seen) ∧
      (dfsLoop nbrs fuel stack comp seen).2 \ seen ⊆ U := by
  intro fuel
  induction fuel with
  | zero =>
    intro stack comp seen _ hb
    have hs : stack = [] := by
      have : stack.length = 0 := by omega
      exact List.eq_nil_of_length_eq_zero this
    subst hs
    simp [dfsLoop]
  | succ fuel ih =>
    intro stack comp seen hstack hb
    match stack with
    | [] => simp [dfsLoop]
    | cur :: rest =>
      have hrest : ∀ x ∈ rest, x ∈ U := fun x hx =>
        hstack x (List.mem_cons_of_mem _ hx)
      obtain ⟨hp2, hpnd, hpmem⟩ := pushLoop_spec seen (nbrs cur)
      set p := pushLoop seen (nbrs cur) with hpdef
      set pset := p.1.toFinset with hpsetdef
      have hpushU : ∀ x ∈ pset, x ∈ U := fun x hx =>
        hn cur x (hpmem x (List.mem_toFinset.mp hx)).2
      have hpushseen : ∀ x ∈ pset, x ∉ seen := fun x hx =>
        (hpmem x (List.mem_toFinset.mp hx)).1
      have hunfold :
          dfsLoop nbrs (fuel + 1) (cur :: rest) comp seen
            = dfsLoop nbrs fuel (p.1 ++ rest) (insert cur comp) p.2 := rfl
      have hstack' : ∀ x ∈ p.1 ++ rest, x ∈ U := by
        intro x hx
        rcases List.mem_append.mp hx with hx | hx
        · exact hpushU x (List.mem_toFinset.mpr hx)
        · exact hrest x hx
      have hdiff : U \ (seen ∪ pset) = (U \ seen) \ pset := by
        ext x
        simp only [Finset.mem_sdiff, Finset.mem_union]
        tauto
      have hpushsub : pset ⊆ U \ seen := fun x hx =>
        Finset.mem_sdiff.mpr ⟨hpushU x hx, hpushseen x hx⟩
      have hpsetcard : pset.card = p.1.length := by
        rw [hpsetdef, List.toFinset_card_of_nodup hpnd]
      have hcard : (U \ p.2).card = (U \ seen).card - p.1.length := by
        rw [hp2, hdiff, Finset.card_sdiff hpushsub, hpsetcard]
      have hpc : p.1.length ≤ (U \ seen).card := by
        rw [← hpsetcard]
        exact Finset.card_le_card hpushsub
      have hb' : (U \ p.2).card + (p.1 ++ rest).length ≤ fuel := by
        rw [hcard, List.length_append]
        simp only [List.length_cons] at hb
        omega
      obtain ⟨hA, hB, hC⟩ := ih (p.1 ++ rest) (insert cur comp) p.2 hstack' hb'
      rw [hunfold]
      set r := dfsLoop nbrs fuel (p.1 ++ rest) (insert cur comp) p.2 with hr
      have hseenp2 : seen ⊆ p.2 := by
        rw [hp2]
        exact Finset.subset_union_left
      have hpushr : pset ⊆ r.2 := fun x hx =>
        hA (hp2 ▸ Finset.mem_union_right _ hx)
      refine ⟨fun x hx => hA (hseenp2 hx), ?_, ?_⟩
      · have hstackset : (p.1 ++ rest).toFinset = pset ∪ rest.toFinset := by
          rw [List.toFinset_append]
        have hsplit : r.2 \ seen = (r.2 \ p.2) ∪ pset := by
          ext x
          simp only [Finset.mem_sdiff, Finset.mem_union]
          constructor
          · intro ⟨hx2, hxs⟩
            by_cases hxp : x ∈ pset
            · exact Or.inr hxp
            · refine Or.inl ⟨hx2, fun h => ?_⟩
              rw [hp2] at h
              exact (Finset.mem_union.mp h).elim hxs hxp
          · rintro (⟨hx2, hxs⟩ | hxp)
            · exact ⟨hx2, fun h => hxs (hp2 ▸ Finset.mem_union_left _ h)⟩
            · exact ⟨hpushr hxp, hpushseen x hxp⟩
        rw [hB, hstackset, hsplit]
        ext x
        simp only [Finset.mem_union, Finset.mem_insert, List.toFinset_cons,
          List.mem_toFinset, Finset.mem_sdiff]
        tauto
      · intro x hx
        rw [Finset.mem_sdiff] at hx
        by_cases hxp : x ∈ pset
        · exact hpushU x hxp
        · refine hC (Finset.mem_sdiff.mpr ⟨hx.1, fun h => ?_⟩)
          rw [hp2] at h
          exact (Finset.mem_union.mp h).elim hx.2 hxp

/-- Behaviour of the outer component loop of `_build_islands`: every produced
island is nonempty, inside the universe `U`, and disjoint from the initially
seen set; islands are pairwise disjoint; and every input face is either
already seen or covered by some island. -/
theorem islandsLoop_spec (nbrs : ℕ → List ℕ) (U : Finset ℕ)
    (hn : ∀ i, ∀ j ∈ nbrs i, j ∈ U) (fuel : ℕ) (hf : U.card + 1 ≤ fuel) :
    ∀ (faces : List ℕ) (seen : Finset ℕ), (∀ x ∈ faces, x ∈ U) →
      (∀ s ∈ islandsLoop nbrs fuel faces seen,
        s.Nonempty ∧ s ⊆ U ∧ Disjoint s seen) ∧
      List.Pairwise Disjoint (islandsLoop nbrs fuel faces seen) ∧
      (∀ x ∈ faces,
        x ∈ seen ∨ ∃ s ∈ islandsLoop nbrs fuel faces seen, x ∈ s) := by
  intro faces
  induction faces with
  | nil => intro seen _; simp [islandsLoop]
  | cons f fs ih =>
    intro seen hfaces
    have hfU : f ∈ U := hfaces f (List.mem_cons_self _ _)
    have hfsU : ∀ x ∈ fs, x ∈ U := fun x hx =>
      hfaces x (List.mem_cons_of_mem _ hx)
    by_cases hfseen : f ∈ seen
    · have hunf : islandsLoop nbrs fuel (f :: fs) seen
          = islandsLoop nbrs fuel fs seen := by
        simp [islandsLoop, hfseen]
      obtain ⟨ihA, ihB, ihC⟩ := ih seen hfsU
      rw [hunf]
      refine ⟨ihA, ihB, ?_⟩
      intro x hx
      rcases List.mem_cons.mp hx with rfl | hx
      · exact Or.inl hfseen
      · exact ihC x hx
    · have hunf : islandsLoop nbrs fuel (f :: fs) seen
          = (dfsLoop nbrs fuel [f] ∅ (insert f seen)).1
            :: islandsLoop nbrs fuel fs
                (dfsLoop nbrs fuel [f] ∅ (insert f seen)).2 := by
        simp [islandsLoop, hfseen]
      set r := dfsLoop nbrs fuel [f] ∅ (insert f seen) with hrdef
      have hS : ∀ x ∈ [f], x ∈ U := by
        intro x hx
        rw [List.mem_singleton] at hx
        exact hx ▸ hfU
      have hbound : (U \ insert f seen).card + ([f] : List ℕ).length ≤ fuel := by
        have h1 : (U \ insert f seen).card ≤ U.card :=
          Finset.card_le_card (Finset.sdiff_subset)
        simp only [List.length_singleton]
        omega
      obtain ⟨hA, hB, hC⟩ := dfsLoop_spec nbrs U hn fuel [f] ∅ (insert f seen)
        hS hbound
      have hBs : r.1 = {f} ∪ (r.2 \ insert f seen) := by
        rw [← hrdef] at hB
        simpa using hB
      have hfcomp : f ∈ r.1 := by rw [hBs]; simp
      have hcompU : r.1 ⊆ U := by
        rw [hBs]
        intro x hx
        rcases Finset.mem_union.mp hx with hx | hx
        · rw [Finset.mem_singleton] at hx
          exact hx ▸ hfU
        · exact hC (by rw [← hrdef]; exact hx)
      have hcompseen : Disjoint r.1 seen := by
        rw [Finset.disjoint_left]
        intro x hx hxs
        rcases Finset.mem_union.mp (hBs ▸ hx) with hx' | hx'
        · rw [Finset.mem_singleton] at hx'
          exact hfseen (hx' ▸ hxs)
        · exact (Finset.mem_sdiff.mp hx').2 (Finset.mem_insert_of_mem hxs)
      have hseenr2 : seen ⊆ r.2 := fun x hx =>
        hA (Finset.mem_insert_of_mem hx)
      have hcompr2 : r.1 ⊆ r.2 := by
        rw [hBs]
        intro x hx
        rcases Finset.mem_union.mp hx with hx | hx
        · rw [Finset.mem_singleton] at hx
          exact hA (hx ▸ Finset.mem_insert_self f seen)
        · exact (Finset.mem_sdiff.mp hx).1
      obtain ⟨ihA, ihB, ihC⟩ := ih r.2 hfsU
      rw [hunf]
      refine ⟨?_, ?_, ?_⟩
      · intro s hs
        rcases List.mem_cons.mp hs with rfl | hs
        · exact ⟨⟨f, hfcomp⟩, hcompU, hcompseen⟩
        · obtain ⟨h1, h2, h3⟩ := ihA s hs
          exact ⟨h1, h2, Finset.disjoint_of_subset_right hseenr2 h3⟩
      · refine List.Pairwise.cons ?_ ihB
        intro s hs
        have h3 := (ihA s hs).2.2
        exact Finset.disjoint_of_subset_left hcompr2 h3.symm
      · intro x hx
        rcases List.mem_cons.mp hx with rfl | hx
        · exact Or.inr ⟨r.1, List.mem_cons_self _ _, hfcomp⟩
        · rcases ihC x hx with hx2 | ⟨s, hs, hxs⟩
          · have : x ∈ insert f seen ∨ x ∈ r.1 := by
              by_cases hxi : x ∈ insert f seen
              · exact Or.inl hxi
              · exact Or.inr (by
                  rw [hBs]
                  exact Finset.mem_union_right _
                    (Finset.mem_sdiff.mpr ⟨hx2, hxi⟩))
            rcases this with hxi | hxc
            · rcases Finset.mem_insert.mp hxi with rfl | hxi
              · exact Or.inr ⟨r.1, List.mem_cons_self _ _, hfcomp⟩
              · exact Or.inl hxi
            · exact Or.inr ⟨r.1, List.mem_cons_self _ _, hxc⟩
          · exact Or.inr ⟨s, List.mem_cons_of_mem _ hs, hxs⟩

lemma foldr_union_subset {l : List (Finset ℕ)} {U : Finset ℕ}
    (h : ∀ s ∈ l, s ⊆ U) : l.foldr (· ∪ ·) ∅ ⊆ U := by
  induction l with
  | nil => simp
  | cons s t ih =>
    simp only [List.foldr_cons]
    exact Finset.union_subset (h s (List.mem_cons_self _ _))
      (ih fun s hs => h s (List.mem_cons_of_mem _ hs))

lemma mem_foldr_union {l : List (Finset ℕ)} {s : Finset ℕ} {x : ℕ}
    (hs : s ∈ l) (hx : x ∈ s) : x ∈ l.foldr (· ∪ ·) ∅ := by
  induction l with
  | nil => simp at hs
  | cons t ts ih =>
    simp only [List.foldr_cons, Finset.mem_union]
    rcases List.mem_cons.mp hs with rfl | hs
    · exact Or.inl hx
    · exact Or.inr (ih hs)

/-- Unfolding of a successful `_build_islands` run: either the filtered face
list is empty and no islands are returned, or the islands are those of the
component loop over the filtered faces. -/
lemma build_islands_eq {α : Type} [LinearOrder α] {bm : BMesh α}
    {respect_selection : Bool} {isls : List (Finset ℕ)}
    (h : _build_islands bm respect_selection = Except.ok isls) :
    (selFaces bm respect_selection = [] ∧ isls = []) ∨
    (selFaces bm respect_selection ≠ [] ∧
      isls = islandsLoop
        (nbrsOf (buildEdgeMap (selFaces bm respect_selection)))
        ((selFaces bm respect_selection).length + 1)
        ((selFaces bm respect_selection).map Prod.fst) ∅) := by
  by_cases hUV : bm.hasUV
  · rw [_build_islands] at h
    simp only [_active_uv_layer, hUV, if_true] at h
    by_cases hE : (selFaces bm respect_selection).isEmpty
    · left
      rw [show (Except.ok () >>= fun _ =>
          (if (selFaces bm respect_selection).isEmpty then
            (pure [] : Except String (List (Finset ℕ)))
          else pure (islandsLoop
            (nbrsOf (buildEdgeMap (selFaces bm respect_selection)))
            ((selFaces bm respect_selection).length + 1)
            ((selFaces bm respect_selection).map Prod.fst) ∅)))
          = (if (selFaces bm respect_selection).isEmpty then
            (pure [] : Except String (List (Finset ℕ)))
          else pure (islandsLoop
            (nbrsOf (buildEdgeMap (selFaces bm respect_selection)))
            ((selFaces bm respect_selection).length + 1)
            ((selFaces bm respect_selection).map Prod.fst) ∅)) from rfl,
        if_pos hE] at h
      simp only [pure, Except.pure, Except.ok.injEq] at h
      exact ⟨List.isEmpty_iff.mp hE, h.symm⟩
    · right
      rw [show (Except.ok () >>= fun _ =>
          (if (selFaces bm respect_selection).isEmpty then
            (pure [] : Except String (List (Finset ℕ)))
          else pure (islandsLoop
            (nbrsOf (buildEdgeMap (selFaces bm respect_selection)))
            ((selFaces bm respect_selection).length + 1)
            ((selFaces bm respect_selection).map Prod.fst) ∅)))
          = (if (selFaces bm respect_selection).isEmpty then
            (pure [] : Except String (List (Finset ℕ)))
          else pure (islandsLoop
            (nbrsOf (buildEdgeMap (selFaces bm respect_selection)))
            ((selFaces bm respect_selection).length + 1)
            ((selFaces bm respect_selection).map Prod.fst) ∅)) from rfl,
        if_neg hE] at h
      refine ⟨fun hnil => hE (by simp [hnil]), ?_⟩
      simp only [pure, Except.pure, Except.ok.injEq] at h
      exact h.symm
  · rw [_build_islands] at h
    simp only [_active_uv_layer, hUV, if_false] at h
    exact absurd h (by simp [Bind.bind, Except.bind])

instance {ε α : Type} [DecidableEq ε] [DecidableEq α] :
    DecidableEq (Except ε α) := by
  intro a b
  cases a <;> cases b
  case error.error e f => exact decidable_of_iff (e = f) (by simp)
  case error.ok e f => exact isFalse (by intro h; cases h)
  case ok.error e f => exact isFalse (by intro h; cases h)
  case ok.ok e f => exact decidable_of_iff (e = f) (by simp)

/-- A concrete three-face mesh over `ℚ`: faces 0 and 1 share the UV edge
between `(1, 0)` and `(0, 1)`, face 2 is separate. -/
def bm1 : BMesh ℚ :=
  ⟨[⟨[(0, 0), (1, 0), (0, 1)], true⟩,
    ⟨[(1, 0), (1, 1), (0, 1)], true⟩,
    ⟨[(5, 5), (6, 5), (6, 6), (5, 6)], true⟩], true⟩

/-- C1: for every input face set F (the faces passing the selection filter),
the island builder returns a list of islands that are pairwise disjoint, each
a subset of F, and whose union equals F — every face of F belongs to exactly
one returned island. -/
theorem build_islands_partition {α : Type} [LinearOrder α] (bm : BMesh α)
    (respect_selection : Bool) (isls : List (Finset ℕ))
    (h : _build_islands bm respect_selection = Except.ok isls) :
    (∀ s ∈ isls, s ⊆ ((selFaces bm respect_selection).map Prod.fst).toFinset) ∧
    List.Pairwise Disjoint isls ∧
    isls.foldr (· ∪ ·) ∅
      = ((selFaces bm respect_selection).map Prod.fst).toFinset ∧
    ∀ i ∈ ((selFaces bm respect_selection).map Prod.fst).toFinset,
      ∃! s, s ∈ isls ∧ i ∈ s := by
  rcases build_islands_eq h with ⟨hnil, rfl⟩ | ⟨hne, rfl⟩
  · simp [hnil]
  · set faces := selFaces bm respect_selection with hfacesdef
    set U := (faces.map Prod.fst).toFinset with hU
    have hn : ∀ i, ∀ j ∈ nbrsOf (buildEdgeMap faces) i, j ∈ U :=
      fun i => nbrsOf_subset faces i
    have hfuel : U.card + 1 ≤ faces.length + 1 := by
      have h1 := List.toFinset_card_le (faces.map Prod.fst)
      rw [List.length_map] at h1
      rw [hU]
      omega
    have hmem : ∀ x ∈ faces.map Prod.fst, x ∈ U := fun x hx =>
      List.mem_toFinset.mpr hx
    obtain ⟨hA, hB, hC⟩ := islandsLoop_spec (nbrsOf (buildEdgeMap faces)) U hn
      (faces.length + 1) hfuel (faces.map Prod.fst) ∅ hmem
    refine ⟨fun s hs => (hA s hs).2.1, hB, ?_, ?_⟩
    · apply Finset.Subset.antisymm
      · exact foldr_union_subset fun s hs => (hA s hs).2.1
      · intro x hx
        rcases hC x (List.mem_toFinset.mp hx) with h0 | ⟨s, hs, hxs⟩
        · simp at h0
        · exact mem_foldr_union hs hxs
    · intro i hi
      rcases hC i (List.mem_toFinset.mp hi) with h0 | ⟨s, hs, his⟩
      · simp at h0
      · refine ⟨s, ⟨hs, his⟩, ?_⟩
        rintro t ⟨ht, hit⟩
        by_contra hne'
        have hdisj := List.Pairwise.forall (fun x y hxy => Disjoint.symm hxy)
          hB ht hs hne'
        exact (Finset.disjoint_left.mp hdisj hit) his

/-- Witness for C1: the partition property evaluated on the concrete mesh
`bm1`, whose islands are `{0, 1}` and `{2}`. -/
theorem build_islands_partition_witness :
    _build_islands bm1 false = Except.ok [{0, 1}, {2}] ∧
    ((∀ s ∈ [({0, 1} : Finset ℕ), {2}],
        s ⊆ ((selFaces bm1 false).map Prod.fst).toFinset) ∧
      List.Pairwise Disjoint [({0, 1} : Finset ℕ), {2}] ∧
      [({0, 1} : Finset ℕ), {2}].foldr (· ∪ ·) ∅
        = ((selFaces bm1 false).map Prod.fst).toFinset ∧
      ∀ i ∈ ((selFaces bm1 false).map Prod.fst).toFinset,
        ∃! s, s ∈ [({0, 1} : Finset ℕ), {2}] ∧ i ∈ s) :=
  ⟨by decide, build_islands_partition bm1 false [{0, 1}, {2}] (by decide)⟩

/-- C10: every island returned by the island builder is non-empty — each
traversal seeds its component with an input face that is always included — so
the `if not isl: continue` branch guarding against an empty island in
`_align_islands_in_bmesh` (the `isl.isEmpty` test of `align_step`) is
unreachable whenever islands come from the builder. -/
theorem build_islands_nonempty {α : Type} [LinearOrder α] (bm : BMesh α)
    (respect_selection : Bool) (isls : List (Finset ℕ))
    (h : _build_islands bm respect_selection = Except.ok isls) :
    ∀ s ∈ isls, s.Nonempty := by
  rcases build_islands_eq h with ⟨_, rfl⟩ | ⟨hne, rfl⟩
  · simp
  · set faces := selFaces bm respect_selection with hfacesdef
    set U := (faces.map Prod.fst).toFinset with hU
    have hn : ∀ i, ∀ j ∈ nbrsOf (buildEdgeMap faces) i, j ∈ U :=
      fun i => nbrsOf_subset faces i
    have hfuel : U.card + 1 ≤ faces.length + 1 := by
      have h1 := List.toFinset_card_le (faces.map Prod.fst)
      rw [List.length_map] at h1
      rw [hU]
      omega
    have hmem : ∀ x ∈ faces.map Prod.fst, x ∈ U := fun x hx =>
      List.mem_toFinset.mpr hx
    obtain ⟨hA, _, _⟩ := islandsLoop_spec (nbrsOf (buildEdgeMap faces)) U hn
      (faces.length + 1) hfuel (faces.map Prod.fst) ∅ hmem
    exact fun s hs => (hA s hs).1

/-- Witness for C10: nonemptiness of a concrete builder island. -/
theorem build_islands_nonempty_witness :
    _build_islands bm1 false = Except.ok [{0, 1}, {2}] ∧
    ({0, 1} : Finset ℕ) ∈ [({0, 1} : Finset ℕ), {2}] ∧
    ({0, 1} : Finset ℕ).Nonempty :=
  ⟨by decide, by decide,
    build_islands_nonempty bm1 false [{0, 1}, {2}] (by decide) {0, 1}
      (by decide)⟩

/-- A one-face mesh over `ℚ` whose single face is not selected. -/
def bm3 : BMesh ℚ := ⟨[⟨[(0, 0), (1, 0), (0, 1)], false⟩], true⟩

/-- Counterexample to C3: with `respect_selection = true` (the edit-mode call)
and no face selected, `_build_islands` returns the empty island list, not the
islands of the whole mesh (which are `[{0}]`): there is no fallback to "all
faces". -/
theorem build_islands_no_selection_counterexample :
    _build_islands bm3 true = Except.ok [] ∧
    _build_islands bm3 false = Except.ok [{0}] ∧
    bm3.faces ≠ [] :=
  ⟨by decide, by decide, by decide⟩

/-- C3 amended: in edit-mode processing (`respect_selection = true`), if no
faces are selected then zero islands are built — `_build_islands` returns the
empty list rather than falling back to the whole mesh. -/
theorem build_islands_no_selection_empty {α : Type} [LinearOrder α]
    (bm : BMesh α) (hsel : ∀ f ∈ bm.faces, f.select = false)
    (hUV : bm.hasUV = true) :
    _build_islands bm true = Except.ok [] := by
  have hfaces : selFaces bm true = [] := by
    rw [selFaces, List.filter_eq_nil_iff]
    intro p hp
    have hp2 : p.2 ∈ bm.faces := by
      have := List.mem_map_of_mem Prod.snd hp
      rwa [List.enum_map_snd] at this
    simp [hsel p.2 hp2]
  rw [_build_islands]
  simp [_active_uv_layer, hUV, hfaces, Bind.bind, Except.bind, pure, Except.pure]

/-- Witness for the amended C3 on the concrete unselected mesh `bm3`. -/
theorem build_islands_no_selection_empty_witness :
    (∀ f ∈ bm3.faces, f.select = false) ∧ bm3.hasUV = true ∧
    _build_islands bm3 true = Except.ok [] :=
  ⟨by decide, by decide,
    build_islands_no_selection_empty bm3 (by decide) (by decide)⟩

lemma sq_sum_pos {d : ℝ × ℝ} (hd : d ≠ (0, 0)) : 0 < d.1 ^ 2 + d.2 ^ 2 := by
  have h01 : d.1 ≠ 0 ∨ d.2 ≠ 0 := by
    by_contra h
    push_neg at h
    exact hd (Prod.ext h.1 h.2)
  rcases h01 with h | h
  · have h1 : 0 < d.1 ^ 2 := by positivity
    nlinarith [sq_nonneg d.2]
  · have h1 : 0 < d.2 ^ 2 := by positivity
    nlinarith [sq_nonneg d.1]

lemma rot1_injective (ca sa : ℝ) (p : ℝ × ℝ) (h : ca ^ 2 + sa ^ 2 = 1) :
    Function.Injective (rot1 ca sa p) := by
  intro u v huv
  simp only [rot1, Prod.mk.injEq] at huv
  obtain ⟨e1, e2⟩ := huv
  rw [Prod.ext_iff]
  constructor
  · linear_combination ca * e1 + sa * e2 - (u.1 - v.1) * h
  · linear_combination ca * e2 - sa * e1 - (u.2 - v.2) * h

lemma toFinset_map_image {β : Type} [DecidableEq β] (l : List (ℝ × ℝ))
    (f : ℝ × ℝ → β) : (l.map f).toFinset = l.toFinset.image f := by
  ext x
  simp

lemma island_uvs_rotate (isl : List (Face ℝ)) (ang : ℝ) (p : ℝ × ℝ) :
    island_uvs (_rotate_island isl ang p)
      = (island_uvs isl).image (rot1 (Real.cos ang) (Real.sin ang) p) := by
  ext x
  simp only [island_uvs, _rotate_island, List.mem_toFinset, List.mem_flatMap,
    List.mem_map, Finset.mem_image]
  constructor
  · rintro ⟨f, ⟨g, hg, rfl⟩, hx⟩
    rcases List.mem_map.mp hx with ⟨uv, huv, rfl⟩
    exact ⟨uv, ⟨g, hg, huv⟩, rfl⟩
  · rintro ⟨uv, ⟨g, hg, huv⟩, rfl⟩
    exact ⟨_, ⟨g, hg, rfl⟩, List.mem_map.mpr ⟨uv, huv, rfl⟩⟩

lemma centroid_empty (isl : List (Face ℝ)) (h : island_uvs isl = ∅) :
    _island_centroid_uv isl = (0, 0) := by
  simp [_island_centroid_uv, h]

lemma centroid_eq_of_ne (isl : List (Face ℝ)) (h : island_uvs isl ≠ ∅) :
    _island_centroid_uv isl
      = ((island_uvs isl).sum (fun uv => uv.1)
            * (1 / ((island_uvs isl).card : ℝ)),
         (island_uvs isl).sum (fun uv => uv.2)
            * (1 / ((island_uvs isl).card : ℝ))) := by
  simp [_island_centroid_uv, h]

/-- C7: with the pivot computed as the arithmetic mean of the island's unique
UV vertex positions (duplicate loops at the same coordinate contributing
once), the centroid of the unique UV positions after rotating the island about
that pivot by any angle equals the centroid before rotation, exactly in real
arithmetic. -/
theorem centroid_invariant_under_rotation (isl : List (Face ℝ)) (ang : ℝ) :
    _island_centroid_uv (_rotate_island isl ang (_island_centroid_uv isl))
      = _island_centroid_uv isl := by
  set p := _island_centroid_uv isl with hp
  set ca := Real.cos ang with hca
  set sa := Real.sin ang with hsa
  have hcs : ca ^ 2 + sa ^ 2 = 1 := by
    rw [hca, hsa]
    exact Real.cos_sq_add_sin_sq ang
  have hinj := rot1_injective ca sa p hcs
  have himg := island_uvs_rotate isl ang p
  rw [← hca, ← hsa] at himg
  by_cases hS : island_uvs isl = ∅
  · have h2 : island_uvs (_rotate_island isl ang p) = ∅ := by
      rw [himg, hS, Finset.image_empty]
    rw [centroid_empty _ h2, hp, centroid_empty _ hS]
  · have hSne : (island_uvs isl).Nonempty := Finset.nonempty_iff_ne_empty.mpr hS
    have hSne' : island_uvs (_rotate_island isl ang p) ≠ ∅ := by
      rw [himg]
      exact Finset.nonempty_iff_ne_empty.mp (hSne.image _)
    have hC := centroid_eq_of_ne isl hS
    have hC2 := centroid_eq_of_ne _ hSne'
    set S := island_uvs isl with hSdef
    set Sx := S.sum (fun uv => uv.1) with hSx
    set Sy := S.sum (fun uv => uv.2) with hSy
    have hn0 : ((S.card : ℝ)) ≠ 0 := by
      have : 0 < S.card := Finset.card_pos.mpr hSne
      exact_mod_cast Nat.pos_iff_ne_zero.mp this
    have hp1 : p.1 = Sx * (1 / (S.card : ℝ)) := by rw [hp, hC]
    have hp2 : p.2 = Sy * (1 / (S.card : ℝ)) := by rw [hp, hC]
    have e1 : (S.card : ℝ) * p.1 = Sx := by
      rw [hp1]
      field_simp
    have e2 : (S.card : ℝ) * p.2 = Sy := by
      rw [hp2]
      field_simp
    have hinjOn : ∀ x ∈ S, ∀ y ∈ S, rot1 ca sa p x = rot1 ca sa p y → x = y :=
      fun x _ y _ hxy => hinj hxy
    rw [hC2, himg, Finset.sum_image hinjOn, Finset.sum_image hinjOn,
      Finset.card_image_of_injective S hinj]
    have hs1 : S.sum (fun x => (rot1 ca sa p x).1)
        = ca * Sx - sa * Sy + (S.card : ℝ) * (p.1 - ca * p.1 + sa * p.2) := by
      have hterm : ∀ x ∈ S, (rot1 ca sa p x).1
          = ca * x.1 - sa * x.2 + (p.1 - ca * p.1 + sa * p.2) := by
        intro x _
        simp only [rot1]
        ring
      rw [Finset.sum_congr rfl hterm, Finset.sum_add_distrib,
        Finset.sum_sub_distrib, ← Finset.mul_sum, ← Finset.mul_sum,
        Finset.sum_const, nsmul_eq_mul, ← hSx, ← hSy]
    have hs2 : S.sum (fun x => (rot1 ca sa p x).2)
        = sa * Sx + ca * Sy + (S.card : ℝ) * (p.2 - sa * p.1 - ca * p.2) := by
      have hterm : ∀ x ∈ S, (rot1 ca sa p x).2
          = sa * x.1 + ca * x.2 + (p.2 - sa * p.1 - ca * p.2) := by
        intro x _
        simp only [rot1]
        ring
      rw [Finset.sum_congr rfl hterm, Finset.sum_add_distrib,
        Finset.sum_add_distrib, ← Finset.mul_sum, ← Finset.mul_sum,
        Finset.sum_const, nsmul_eq_mul, ← hSx, ← hSy]
    have hA1 : ca * Sx - sa * Sy + (S.card : ℝ) * (p.1 - ca * p.1 + sa * p.2)
        = (S.card : ℝ) * p.1 := by
      linear_combination (-ca) * e1 + sa * e2
    have hA2 : sa * Sx + ca * Sy + (S.card : ℝ) * (p.2 - sa * p.1 - ca * p.2)
        = (S.card : ℝ) * p.2 := by
      linear_combination (-sa) * e1 + (-ca) * e2
    rw [hs1, hs2, hA1, hA2]
    rw [Prod.ext_iff]
    constructor
    · show (S.card : ℝ) * p.1 * (1 / (S.card : ℝ)) = p.1
      field_simp
    · show (S.card : ℝ) * p.2 * (1 / (S.card : ℝ)) = p.2
      field_simp

/-- C8: loops of an island whose UV coordinates are identical before rotation
have identical UV coordinates after `_rotate_island` about the same pivot by
the same angle — the transform is a deterministic function of the input
coordinate, preserving UV-seam coincidence. -/
theorem rotate_island_preserves_coincidence (isl : List (Face ℝ)) (ang : ℝ)
    (pivot : ℝ × ℝ) (i j k m : ℕ)
    (hi : i < isl.length) (hj : j < isl.length)
    (hk : k < (isl.get ⟨i, hi⟩).loops.length)
    (hm : m < (isl.get ⟨j, hj⟩).loops.length)
    (hi2 : i < (_rotate_island isl ang pivot).length)
    (hj2 : j < (_rotate_island isl ang pivot).length)
    (hk2 : k < ((_rotate_island isl ang pivot).get ⟨i, hi2⟩).loops.length)
    (hm2 : m < ((_rotate_island isl ang pivot).get ⟨j, hj2⟩).loops.length)
    (heq : (isl.get ⟨i, hi⟩).loops.get ⟨k, hk⟩
      = (isl.get ⟨j, hj⟩).loops.get ⟨m, hm⟩) :
    ((_rotate_island isl ang pivot).get ⟨i, hi2⟩).loops.get ⟨k, hk2⟩
      = ((_rotate_island isl ang pivot).get ⟨j, hj2⟩).loops.get ⟨m, hm2⟩ := by
  simp only [List.get_eq_getElem] at heq ⊢
  simp only [_rotate_island, List.getElem_map]
  exact congrArg _ heq

/-- A concrete island for the C8 witness: one face whose loops 0 and 1 carry
the same UV coordinate. -/
def isl8 : List (Face ℝ) := [⟨[(1, 2), (1, 2), (0, 0)], false⟩]

/-- Witness for C8: coincident loops of `isl8` stay coincident after rotation
by 1 radian about pivot `(3, 4)`. -/
theorem rotate_island_preserves_coincidence_witness :
    ((_rotate_island isl8 1 (3, 4)).get ⟨0, by simp [_rotate_island, isl8]⟩).loops.get
        ⟨0, by simp [_rotate_island, isl8]⟩
      = ((_rotate_island isl8 1 (3, 4)).get ⟨0, by simp [_rotate_island, isl8]⟩).loops.get
        ⟨1, by simp [_rotate_island, isl8]⟩ :=
  rotate_island_preserves_coincidence isl8 1 (3, 4) 0 0 0 1
    (by simp [isl8]) (by simp [isl8]) (by simp [isl8]) (by simp [isl8])
    (by simp [_rotate_island, isl8]) (by simp [_rotate_island, isl8])
    (by simp [_rotate_island, isl8]) (by simp [_rotate_island, isl8]) rfl

lemma sq_sum_pos' {dx dy : ℝ} (hd : ¬(dx = 0 ∧ dy = 0)) :
    0 < dx ^ 2 + dy ^ 2 := by
  have h01 : dx ≠ 0 ∨ dy ≠ 0 := by tauto
  rcases h01 with h | h
  · have h1 : 0 < dx ^ 2 := by positivity
    nlinarith [sq_nonneg dy]
  · have h1 : 0 < dy ^ 2 := by positivity
    nlinarith [sq_nonneg dx]

lemma mk_ne_zero' {dx dy : ℝ} (hd : ¬(dx = 0 ∧ dy = 0)) :
    (⟨dx, dy⟩ : ℂ) ≠ 0 := by
  intro h
  rw [Complex.ext_iff] at h
  exact hd ⟨h.1, h.2⟩

/-- Rotating the direction `(dx, dy)` by `-atan2 dy dx` yields a vector with
zero second component and positive first component: the mathematical heart of
the alignment step. -/
lemma rot_dir_spec (dx dy : ℝ) (hd : ¬(dx = 0 ∧ dy = 0)) :
    dx * Real.sin (-atan2 dy dx) + dy * Real.cos (-atan2 dy dx) = 0 ∧
    0 < dx * Real.cos (-atan2 dy dx) - dy * Real.sin (-atan2 dy dx) := by
  have hz := mk_ne_zero' hd
  have habs : 0 < Complex.abs ⟨dx, dy⟩ := AbsoluteValue.pos _ hz
  have habsne : Complex.abs ⟨dx, dy⟩ ≠ 0 := habs.ne'
  have hcos : Real.cos (atan2 dy dx) = dx / Complex.abs ⟨dx, dy⟩ := by
    rw [atan2]
    exact Complex.cos_arg hz
  have hsin : Real.sin (atan2 dy dx) = dy / Complex.abs ⟨dx, dy⟩ := by
    rw [atan2]
    exact Complex.sin_arg _
  have hpos : 0 < dx ^ 2 + dy ^ 2 := sq_sum_pos' hd
  rw [Real.sin_neg, Real.cos_neg, hcos, hsin]
  constructor
  · field_simp
    ring
  · have hexpr : dx * (dx / Complex.abs ⟨dx, dy⟩)
        - dy * -(dy / Complex.abs ⟨dx, dy⟩)
        = (dx ^ 2 + dy ^ 2) / Complex.abs ⟨dx, dy⟩ := by
      field_simp
      ring
    rw [hexpr]
    exact div_pos hpos habs

lemma atan2_zero_of_pos {x : ℝ} (hx : 0 < x) : atan2 0 x = 0 := by
  rw [atan2]
  exact Complex.arg_eq_zero_iff.mpr ⟨le_of_lt hx, rfl⟩

/-- Rotation by angle 0 is the identity on the island (exactly, in real
arithmetic). -/
lemma rotate_island_zero (isl : List (Face ℝ)) (p : ℝ × ℝ) :
    _rotate_island isl 0 p = isl := by
  have hrot : ∀ uv : ℝ × ℝ, rot1 1 0 p uv = uv := by
    intro uv
    simp [rot1]
  simp only [_rotate_island, Real.cos_zero, Real.sin_zero]
  have hface : ∀ f : Face ℝ,
      ({ f with loops := f.loops.map (rot1 1 0 p) } : Face ℝ) = f := by
    intro f
    rw [List.map_congr_left fun a _ => hrot a]
    simp
  rw [List.map_congr_left fun f _ => hface f]
  simp

/-- The non-degenerate branch of the alignment loop body: the island is
rotated about its centroid by the alignment angle and counted. -/
lemma align_step_rotates (isl : List (Face ℝ)) (a b : ℝ × ℝ)
    (hne : isl ≠ []) (hab : _island_longest_edge_uv isl = (a, b))
    (hd0 : (b.1 - a.1) ^ 2 + (b.2 - a.2) ^ 2 ≠ 0) :
    align_step isl
      = (_rotate_island isl (align_angle a b) (_island_centroid_uv isl), 1) := by
  have hE : isl.isEmpty = false := by
    cases isl with
    | nil => exact absurd rfl hne
    | cons x xs => rfl
  simp only [align_step, hab, hE, Bool.false_eq_true, if_false]
  rw [if_neg hd0]

/-- C4: for a non-degenerate island, the rotation angle applied by the
alignment loop equals the negative of `atan2(dy, dx)` of the island's longest
unique UV edge, and after rotating the island's loop UVs about the pivot by
this angle, that edge's direction has zero `y`-component, positive
`x`-component, and `atan2` exactly 0 — the longest edge is horizontal,
exactly so in real arithmetic. -/
theorem align_longest_edge_horizontal (isl : List (Face ℝ)) (a b : ℝ × ℝ)
    (hne : isl ≠ []) (hab : _island_longest_edge_uv isl = (a, b))
    (hd : ¬(b.1 - a.1 = 0 ∧ b.2 - a.2 = 0)) :
    align_angle a b = -atan2 (b.2 - a.2) (b.1 - a.1) ∧
    align_step isl
      = (_rotate_island isl (align_angle a b) (_island_centroid_uv isl), 1) ∧
    (rot1 (Real.cos (align_angle a b)) (Real.sin (align_angle a b))
          (_island_centroid_uv isl) b).2
        - (rot1 (Real.cos (align_angle a b)) (Real.sin (align_angle a b))
          (_island_centroid_uv isl) a).2 = 0 ∧
    0 < (rot1 (Real.cos (align_angle a b)) (Real.sin (align_angle a b))
          (_island_centroid_uv isl) b).1
        - (rot1 (Real.cos (align_angle a b)) (Real.sin (align_angle a b))
          (_island_centroid_uv isl) a).1 ∧
    atan2
      ((rot1 (Real.cos (align_angle a b)) (Real.sin (align_angle a b))
          (_island_centroid_uv isl) b).2
        - (rot1 (Real.cos (align_angle a b)) (Real.sin (align_angle a b))
          (_island_centroid_uv isl) a).2)
      ((rot1 (Real.cos (align_angle a b)) (Real.sin (align_angle a b))
          (_island_centroid_uv isl) b).1
        - (rot1 (Real.cos (align_angle a b)) (Real.sin (align_angle a b))
          (_island_centroid_uv isl) a).1) = 0 := by
  obtain ⟨hs1, hs2⟩ := rot_dir_spec (b.1 - a.1) (b.2 - a.2) hd
  have hd0 : (b.1 - a.1) ^ 2 + (b.2 - a.2) ^ 2 ≠ 0 := (sq_sum_pos' hd).ne'
  have hangle : align_angle a b = -atan2 (b.2 - a.2) (b.1 - a.1) := rfl
  have e2 : (rot1 (Real.cos (align_angle a b)) (Real.sin (align_angle a b))
        (_island_centroid_uv isl) b).2
      - (rot1 (Real.cos (align_angle a b)) (Real.sin (align_angle a b))
        (_island_centroid_uv isl) a).2
      = (b.1 - a.1) * Real.sin (align_angle a b)
        + (b.2 - a.2) * Real.cos (align_angle a b) := by
    simp only [rot1]
    ring
  have e1 : (rot1 (Real.cos (align_angle a b)) (Real.sin (align_angle a b))
        (_island_centroid_uv isl) b).1
      - (rot1 (Real.cos (align_angle a b)) (Real.sin (align_angle a b))
        (_island_centroid_uv isl) a).1
      = (b.1 - a.1) * Real.cos (align_angle a b)
        - (b.2 - a.2) * Real.sin (align_angle a b) := by
    simp only [rot1]
    ring
  have h2z : (rot1 (Real.cos (align_angle a b)) (Real.sin (align_angle a b))
        (_island_centroid_uv isl) b).2
      - (rot1 (Real.cos (align_angle a b)) (Real.sin (align_angle a b))
        (_island_centroid_uv isl) a).2 = 0 := by
    rw [e2, hangle]
    exact hs1
  have h1p : 0 < (rot1 (Real.cos (align_angle a b)) (Real.sin (align_angle a b))
        (_island_centroid_uv isl) b).1
      - (rot1 (Real.cos (align_angle a b)) (Real.sin (align_angle a b))
        (_island_centroid_uv isl) a).1 := by
    rw [e1, hangle]
    exact hs2
  refine ⟨hangle, align_step_rotates isl a b hne hab hd0, h2z, h1p, ?_⟩
  rw [h2z]
  exact atan2_zero_of_pos h1p

/-- C9: when the island's longest edge is already horizontal (zero rise,
positive run — the state produced by a prior successful alignment that finds
the same longest edge), the computed rotation angle is exactly 0 and the
alignment step leaves every UV coordinate unchanged while still counting the
island. -/
theorem align_idempotent_on_aligned (isl : List (Face ℝ)) (a b : ℝ × ℝ)
    (hne : isl ≠ []) (hab : _island_longest_edge_uv isl = (a, b))
    (hy : b.2 - a.2 = 0) (hx : 0 < b.1 - a.1) :
    align_angle a b = 0 ∧ align_step isl = (isl, 1) := by
  have hang : align_angle a b = 0 := by
    show -atan2 (b.2 - a.2) (b.1 - a.1) = 0
    rw [hy, atan2_zero_of_pos hx, neg_zero]
  have hd0 : (b.1 - a.1) ^ 2 + (b.2 - a.2) ^ 2 ≠ 0 := by
    rw [hy]
    have := pow_pos hx 2
    nlinarith
  refine ⟨hang, ?_⟩
  rw [align_step_rotates isl a b hne hab hd0, hang, rotate_island_zero]

/-- A concrete one-face island over ℝ whose single (deduplicated) UV edge runs
from `(0, 0)` to `(1, 0)`. -/
def isl9 : List (Face ℝ) := [⟨[(0, 0), (1, 0)], false⟩]

lemma isl9_longest :
    _island_longest_edge_uv isl9 = (((0 : ℝ), (0 : ℝ)), ((1 : ℝ), (0 : ℝ))) := by
  have hedges : isl9.flatMap face_edges
      = [(((0 : ℝ), (0 : ℝ)), ((1 : ℝ), (0 : ℝ))),
         (((1 : ℝ), (0 : ℝ)), ((0 : ℝ), (0 : ℝ)))] := rfl
  have hk1 : norm_key ((0 : ℝ), (0 : ℝ)) ((1 : ℝ), (0 : ℝ))
      = (((0 : ℝ), (0 : ℝ)), ((1 : ℝ), (0 : ℝ))) := by
    rw [norm_key, if_pos]
    exact Or.inl (by norm_num)
  have hk2 : norm_key ((1 : ℝ), (0 : ℝ)) ((0 : ℝ), (0 : ℝ))
      = (((0 : ℝ), (0 : ℝ)), ((1 : ℝ), (0 : ℝ))) := by
    rw [norm_key, if_neg]
    rintro (h | ⟨h, _⟩) <;> norm_num at h
  have hstep1 : longest_step
      (-1, (((0 : ℝ), (0 : ℝ)), ((1 : ℝ), (0 : ℝ))), (∅ : Finset _))
      (((0 : ℝ), (0 : ℝ)), ((1 : ℝ), (0 : ℝ)))
      = (1, (((0 : ℝ), (0 : ℝ)), ((1 : ℝ), (0 : ℝ))),
         {(((0 : ℝ), (0 : ℝ)), ((1 : ℝ), (0 : ℝ)))}) := by
    simp only [longest_step, hk1]
    rw [if_neg (Finset.not_mem_empty _)]
    rw [if_pos (show (-1 : ℝ) < Real.sqrt ((1 - 0) ^ 2 + (0 - 0) ^ 2) by
      have := Real.sqrt_nonneg (((1 : ℝ) - 0) ^ 2 + ((0 : ℝ) - 0) ^ 2)
      linarith)]
    norm_num [Real.sqrt_one]
  have hstep2 : longest_step
      (1, (((0 : ℝ), (0 : ℝ)), ((1 : ℝ), (0 : ℝ))),
        ({(((0 : ℝ), (0 : ℝ)), ((1 : ℝ), (0 : ℝ)))} : Finset _))
      (((1 : ℝ), (0 : ℝ)), ((0 : ℝ), (0 : ℝ)))
      = (1, (((0 : ℝ), (0 : ℝ)), ((1 : ℝ), (0 : ℝ))),
         {(((0 : ℝ), (0 : ℝ)), ((1 : ℝ), (0 : ℝ)))}) := by
    simp only [longest_step, hk2]
    rw [if_pos (Finset.mem_singleton_self _)]
  rw [_island_longest_edge_uv, hedges, List.foldl_cons, hstep1, List.foldl_cons,
    hstep2, List.foldl_nil]

/-- Witness for C4: the alignment property evaluated on `isl9`, whose longest
edge is `((0,0), (1,0))`. -/
theorem align_longest_edge_horizontal_witness :
    isl9 ≠ [] ∧
    _island_longest_edge_uv isl9 = (((0 : ℝ), (0 : ℝ)), ((1 : ℝ), (0 : ℝ))) ∧
    (align_angle ((0 : ℝ), (0 : ℝ)) ((1 : ℝ), (0 : ℝ))
        = -atan2 (((1 : ℝ), (0 : ℝ)).2 - ((0 : ℝ), (0 : ℝ)).2)
            (((1 : ℝ), (0 : ℝ)).1 - ((0 : ℝ), (0 : ℝ)).1) ∧
      align_step isl9
        = (_rotate_island isl9
            (align_angle ((0 : ℝ), (0 : ℝ)) ((1 : ℝ), (0 : ℝ)))
            (_island_centroid_uv isl9), 1) ∧
      (rot1 (Real.cos (align_angle ((0 : ℝ), (0 : ℝ)) ((1 : ℝ), (0 : ℝ))))
            (Real.sin (align_angle ((0 : ℝ), (0 : ℝ)) ((1 : ℝ), (0 : ℝ))))
            (_island_centroid_uv isl9) ((1 : ℝ), (0 : ℝ))).2
          - (rot1 (Real.cos (align_angle ((0 : ℝ), (0 : ℝ)) ((1 : ℝ), (0 : ℝ))))
            (Real.sin (align_angle ((0 : ℝ), (0 : ℝ)) ((1 : ℝ), (0 : ℝ))))
            (_island_centroid_uv isl9) ((0 : ℝ), (0 : ℝ))).2 = 0 ∧
      0 < (rot1 (Real.cos (align_angle ((0 : ℝ), (0 : ℝ)) ((1 : ℝ), (0 : ℝ))))
            (Real.sin (align_angle ((0 : ℝ), (0 : ℝ)) ((1 : ℝ), (0 : ℝ))))
            (_island_centroid_uv isl9) ((1 : ℝ), (0 : ℝ))).1
          - (rot1 (Real.cos (align_angle ((0 : ℝ), (0 : ℝ)) ((1 : ℝ), (0 : ℝ))))
            (Real.sin (align_angle ((0 : ℝ), (0 : ℝ)) ((1 : ℝ), (0 : ℝ))))
            (_island_centroid_uv isl9) ((0 : ℝ), (0 : ℝ))).1 ∧
      atan2
        ((rot1 (Real.cos (align_angle ((0 : ℝ), (0 : ℝ)) ((1 : ℝ), (0 : ℝ))))
            (Real.sin (align_angle ((0 : ℝ), (0 : ℝ)) ((1 : ℝ), (0 : ℝ))))
            (_island_centroid_uv isl9) ((1 : ℝ), (0 : ℝ))).2
          - (rot1 (Real.cos (align_angle ((0 : ℝ), (0 : ℝ)) ((1 : ℝ), (0 : ℝ))))
            (Real.sin (align_angle ((0 : ℝ), (0 : ℝ)) ((1 : ℝ), (0 : ℝ))))
            (_island_centroid_uv isl9) ((0 : ℝ), (0 : ℝ))).2)
        ((rot1 (Real.cos (align_angle ((0 : ℝ), (0 : ℝ)) ((1 : ℝ), (0 : ℝ))))
            (Real.sin (align_angle ((0 : ℝ), (0 : ℝ)) ((1 : ℝ), (0 : ℝ))))
            (_island_centroid_uv isl9) ((1 : ℝ), (0 : ℝ))).1
          - (rot1 (Real.cos (align_angle ((0 : ℝ), (0 : ℝ)) ((1 : ℝ), (0 : ℝ))))
            (Real.sin (align_angle ((0 : ℝ), (0 : ℝ)) ((1 : ℝ), (0 : ℝ))))
            (_island_centroid_uv isl9) ((0 : ℝ), (0 : ℝ))).1) = 0) :=
  ⟨by simp [isl9], isl9_longest,
    align_longest_edge_horizontal isl9 ((0 : ℝ), (0 : ℝ)) ((1 : ℝ), (0 : ℝ))
      (by simp [isl9]) isl9_longest (by norm_num)⟩

/-- Witness for C9: idempotence evaluated on the already-aligned island
`isl9`. -/
theorem align_idempotent_on_aligned_witness :
    isl9 ≠ [] ∧
    _island_longest_edge_uv isl9 = (((0 : ℝ), (0 : ℝ)), ((1 : ℝ), (0 : ℝ))) ∧
    ((1 : ℝ), (0 : ℝ)).2 - ((0 : ℝ), (0 : ℝ)).2 = 0 ∧
    0 < ((1 : ℝ), (0 : ℝ)).1 - ((0 : ℝ), (0 : ℝ)).1 ∧
    (align_angle ((0 : ℝ), (0 : ℝ)) ((1 : ℝ), (0 : ℝ)) = 0 ∧
      align_step isl9 = (isl9, 1)) :=
  ⟨by simp [isl9], isl9_longest, by norm_num, by norm_num,
    align_idempotent_on_aligned isl9 ((0 : ℝ), (0 : ℝ)) ((1 : ℝ), (0 : ℝ))
      (by simp [isl9]) isl9_longest (by norm_num) (by norm_num)⟩

lemma all_edges_coincident {isl : List (Face ℝ)} {c : ℝ × ℝ}
    (hc : ∀ f ∈ isl, ∀ uv ∈ f.loops, uv = c) :
    ∀ e ∈ isl.flatMap face_edges, e = (c, c) := by
  intro e he
  rcases List.mem_flatMap.mp he with ⟨f, hf, hef⟩
  rw [face_edges] at hef
  have hz := List.of_mem_zip (show (e.1, e.2) ∈ f.loops.zip (f.loops.rotate 1)
    from by rwa [Prod.mk.eta])
  have h1 : e.1 = c := hc f hf e.1 hz.1
  have h2 : e.2 = c := hc f hf e.2 (List.mem_rotate.mp hz.2)
  rw [Prod.ext_iff]
  exact ⟨h1, h2⟩

/-- On an island all of whose UV points coincide at `c`, the longest-edge scan
returns the degenerate edge `(c, c)` (provided the island has at least one
loop, so the scan sees at least one edge). -/
lemma longest_of_coincident {isl : List (Face ℝ)} {c : ℝ × ℝ}
    (hc : ∀ f ∈ isl, ∀ uv ∈ f.loops, uv = c)
    (hl : ∃ f ∈ isl, f.loops ≠ []) :
    _island_longest_edge_uv isl = (c, c) := by
  have hall := all_edges_coincident hc
  have hnil : isl.flatMap face_edges ≠ [] := by
    obtain ⟨f, hf, hfl⟩ := hl
    have hzip : face_edges f ≠ [] := by
      rw [face_edges]
      intro hz
      have hlen := congrArg List.length hz
      simp only [List.length_zip, List.length_rotate, min_self,
        List.length_nil] at hlen
      exact hfl (List.eq_nil_of_length_eq_zero hlen)
    obtain ⟨e, he⟩ := List.exists_mem_of_ne_nil _ hzip
    exact List.ne_nil_of_mem (List.mem_flatMap.mpr ⟨f, hf, he⟩)
  obtain ⟨e, E, hE⟩ := List.exists_cons_of_ne_nil hnil
  have hec : e = (c, c) := hall e (by rw [hE]; exact List.mem_cons_self _ _)
  have hkey : norm_key c c = (c, c) := by
    rw [norm_key]
    split <;> rfl
  have hstep1 : longest_step
      (-1, (((0 : ℝ), (0 : ℝ)), ((1 : ℝ), (0 : ℝ))), (∅ : Finset _)) (c, c)
      = (0, (c, c), {norm_key c c}) := by
    simp only [longest_step]
    rw [if_neg (Finset.not_mem_empty _)]
    rw [if_pos (show (-1 : ℝ) < Real.sqrt ((c.1 - c.1) ^ 2 + (c.2 - c.2) ^ 2) by
      have := Real.sqrt_nonneg ((c.1 - c.1) ^ 2 + (c.2 - c.2) ^ 2)
      linarith)]
    norm_num [sub_self, Real.sqrt_zero]
  have habs : ∀ E' : List ((ℝ × ℝ) × (ℝ × ℝ)), (∀ x ∈ E', x = (c, c)) →
      List.foldl longest_step (0, (c, c), {norm_key c c}) E'
        = (0, (c, c), {norm_key c c}) := by
    intro E'
    induction E' with
    | nil => intro _; rfl
    | cons x xs ih =>
      intro hx
      rw [List.foldl_cons, hx x (List.mem_cons_self _ _)]
      have hone : longest_step (0, (c, c), {norm_key c c}) (c, c)
          = (0, (c, c), {norm_key c c}) := by
        simp only [longest_step]
        rw [if_pos (Finset.mem_singleton_self _)]
      rw [hone]
      exact ih fun y hy => hx y (List.mem_cons_of_mem _ hy)
  rw [_island_longest_edge_uv, hE, List.foldl_cons, hec, hstep1,
    habs E fun y hy => hall y (by rw [hE]; exact List.mem_cons_of_mem _ hy)]

/-- C5 (amended): a degenerate island — every UV point coincident at `c` — is
skipped by the alignment loop: it is left unchanged and contributes 0 to the
count (so the reported aligned-island count excludes it), and processing of
the surrounding islands is unaffected. -/
theorem align_step_degenerate (isl : List (Face ℝ)) (c : ℝ × ℝ)
    (pre post : List (List (Face ℝ)))
    (hne : isl ≠ []) (hc : ∀ f ∈ isl, ∀ uv ∈ f.loops, uv = c)
    (hl : ∃ f ∈ isl, f.loops ≠ []) :
    align_step isl = (isl, 0) ∧
    align_total (pre ++ isl :: post) = align_total (pre ++ post) := by
  have hlong := longest_of_coincident hc hl
  have hE : isl.isEmpty = false := by
    cases isl with
    | nil => exact absurd rfl hne
    | cons x xs => rfl
  have hstep : align_step isl = (isl, 0) := by
    simp only [align_step, hlong, hE, Bool.false_eq_true, if_false]
    rw [if_pos (by simp [sub_self])]
  refine ⟨hstep, ?_⟩
  rw [align_total, align_total, List.foldl_append, List.foldl_append,
    List.foldl_cons, hstep]
  simp

/-- A face whose UV points are all coincident at `(0, 0)`. -/
def degFace : Face ℝ := ⟨[(0, 0), (0, 0), (0, 0)], false⟩

lemma degFace_coincident :
    ∀ f ∈ [degFace], ∀ uv ∈ f.loops, uv = ((0 : ℝ), (0 : ℝ)) := by
  intro f hf uv huv
  rw [List.mem_singleton] at hf
  subst hf
  simp only [degFace, List.mem_cons, List.not_mem_nil, or_false] at huv
  rcases huv with rfl | rfl | rfl <;> rfl

lemma degFace_step : align_step [degFace] = ([degFace], 0) := by
  have hlong : _island_longest_edge_uv [degFace] = ((0, 0), (0, 0)) :=
    longest_of_coincident degFace_coincident
      ⟨degFace, List.mem_singleton_self _, by simp [degFace]⟩
  simp only [align_step, hlong]
  rw [if_neg (by simp : ¬([degFace] : List (Face ℝ)).isEmpty = true)]
  rw [if_pos (by norm_num)]

/-- Counterexample to C5's count clause: over the single degenerate island
`[degFace]` the reported aligned-island total of `_align_islands_in_bmesh` is
0, while the island list has length 1 — the degenerate island is not included
in the reported count. -/
theorem align_total_degenerate_counterexample :
    align_total [[degFace]] = 0 ∧
    ([[degFace]] : List (List (Face ℝ))).length = 1 := by
  constructor
  · rw [align_total, List.foldl_cons, degFace_step, List.foldl_nil]
    rfl
  · rfl

/-- Witness for the amended C5 on the concrete degenerate island. -/
theorem align_step_degenerate_witness :
    ([degFace] : List (Face ℝ)) ≠ [] ∧
    (∀ f ∈ [degFace], ∀ uv ∈ f.loops, uv = ((0 : ℝ), (0 : ℝ))) ∧
    (∃ f ∈ [degFace], f.loops ≠ []) ∧
    (align_step [degFace] = ([degFace], 0) ∧
      align_total ([] ++ [degFace] :: []) = align_total ([] ++ [])) :=
  ⟨by simp, degFace_coincident,
    ⟨degFace, List.mem_singleton_self _, by simp [degFace]⟩,
    align_step_degenerate [degFace] ((0 : ℝ), (0 : ℝ)) [] [] (by simp)
      degFace_coincident
      ⟨degFace, List.mem_singleton_self _, by simp [degFace]⟩⟩

lemma addToGroups_entries (acc : List (ℕ × List Obj)) (done : List Obj)
    (o : Obj)
    (h1 : ∀ e ∈ acc, e.2 = done.filter fun x => x.meshKey == e.1)
    (h2 : o.meshKey ∉ acc.map Prod.fst →
      done.filter (fun x => x.meshKey == o.meshKey) = [])
    (h3 : (acc.map Prod.fst).Nodup) :
    ∀ e ∈ addToGroups acc o,
      e.2 = (done ++ [o]).filter fun x => x.meshKey == e.1 := by
  induction acc with
  | nil =>
    intro e he
    simp only [addToGroups, List.mem_singleton] at he
    subst he
    rw [List.filter_append, h2 (by simp)]
    simp
  | cons hd tl ih =>
    intro e he
    simp only [addToGroups] at he
    by_cases hk : hd.1 = o.meshKey
    · rw [if_pos hk] at he
      rcases List.mem_cons.mp he with rfl | he
      · have hhd := h1 hd (List.mem_cons_self _ _)
        rw [List.filter_append, ← hhd]
        simp [hk]
      · have hh := h1 e (List.mem_cons_of_mem _ he)
        rw [List.filter_append, ← hh]
        have hne : e.1 ≠ o.meshKey := by
          rw [← hk]
          intro hcontra
          exact (List.nodup_cons.mp h3).1
            (hcontra ▸ List.mem_map.mpr ⟨e, he, rfl⟩)
        have hbeq : (o.meshKey == e.1) = false := by
          simpa using Ne.symm hne
        simp [List.filter_cons, hbeq]
    · rw [if_neg hk] at he
      rcases List.mem_cons.mp he with rfl | he
      · have hhd := h1 e (List.mem_cons_self _ _)
        rw [List.filter_append, ← hhd]
        have hbeq : (o.meshKey == e.1) = false := by
          simpa using fun hcontra => hk hcontra.symm
        simp [List.filter_cons, hbeq]
      · have h1' : ∀ e' ∈ tl, e'.2 = done.filter fun x => x.meshKey == e'.1 :=
          fun e' he' => h1 e' (List.mem_cons_of_mem _ he')
        have h2' : o.meshKey ∉ tl.map Prod.fst →
            done.filter (fun x => x.meshKey == o.meshKey) = [] := by
          intro hmem
          apply h2
          intro hcontra
          rcases List.mem_cons.mp hcontra with h | h
          · exact hk h.symm
          · exact hmem h
        exact ih h1' h2' (List.nodup_cons.mp h3).2 e he

lemma addToGroups_keys (acc : List (ℕ × List Obj)) (o : Obj) :
    (addToGroups acc o).map Prod.fst
      = if o.meshKey ∈ acc.map Prod.fst then acc.map Prod.fst
        else acc.map Prod.fst ++ [o.meshKey] := by
  induction acc with
  | nil => simp [addToGroups]
  | cons hd tl ih =>
    by_cases hk : hd.1 = o.meshKey
    · simp only [addToGroups, if_pos hk, List.map_cons]
      rw [if_pos (by
        rw [← hk]
        exact List.mem_cons_self _ _)]
    · simp only [addToGroups, if_neg hk, List.map_cons, ih]
      by_cases hmem : o.meshKey ∈ tl.map Prod.fst
      · rw [if_pos hmem, if_pos (List.mem_cons_of_mem _ hmem)]
      · rw [if_neg hmem, if_neg (by
          intro hcontra
          rcases List.mem_cons.mp hcontra with h | h
          · exact hk h.symm
          · exact hmem h)]
        rfl

lemma addToGroups_nodup (acc : List (ℕ × List Obj)) (o : Obj)
    (h : (acc.map Prod.fst).Nodup) :
    ((addToGroups acc o).map Prod.fst).Nodup := by
  rw [addToGroups_keys]
  by_cases hmem : o.meshKey ∈ acc.map Prod.fst
  · rw [if_pos hmem]
    exact h
  · rw [if_neg hmem]
    simp [List.nodup_append, h, hmem]

lemma addToGroups_ne_nil (acc : List (ℕ × List Obj)) (o : Obj)
    (h : ∀ e ∈ acc, e.2 ≠ []) :
    ∀ e ∈ addToGroups acc o, e.2 ≠ [] := by
  induction acc with
  | nil =>
    intro e he
    simp only [addToGroups, List.mem_singleton] at he
    subst he
    simp
  | cons hd tl ih =>
    intro e he
    simp only [addToGroups] at he
    by_cases hk : hd.1 = o.meshKey
    · rw [if_pos hk] at he
      rcases List.mem_cons.mp he with rfl | he
      · simp
      · exact h e (List.mem_cons_of_mem _ he)
    · rw [if_neg hk] at he
      rcases List.mem_cons.mp he with rfl | he
      · exact h e (List.mem_cons_self _ _)
      · exact ih (fun e' he' => h e' (List.mem_cons_of_mem _ he')) e he

/-- Invariant of the `_groups_by_mesh` fold: each association entry holds
exactly the processed objects with its key, keys are distinct, absent keys
have no processed objects, and no group is empty. -/
lemma groupsAssoc_spec (l : List Obj) :
    ∀ (acc : List (ℕ × List Obj)) (done : List Obj),
      (∀ e ∈ acc, e.2 = done.filter fun x => x.meshKey == e.1) →
      (acc.map Prod.fst).Nodup →
      (∀ k, k ∉ acc.map Prod.fst →
        done.filter (fun x => x.meshKey == k) = []) →
      (∀ e ∈ acc, e.2 ≠ []) →
      (∀ e ∈ l.foldl addToGroups acc,
        e.2 = (done ++ l).filter fun x => x.meshKey == e.1) ∧
      ((l.foldl addToGroups acc).map Prod.fst).Nodup ∧
      (∀ k, k ∉ (l.foldl addToGroups acc).map Prod.fst →
        (done ++ l).filter (fun x => x.meshKey == k) = []) ∧
      (∀ e ∈ l.foldl addToGroups acc, e.2 ≠ []) := by
  induction l with
  | nil =>
    intro acc done h1 h2 h3 h4
    simp only [List.foldl_nil, List.append_nil]
    exact ⟨h1, h2, h3, h4⟩
  | cons o t ih =>
    intro acc done h1 h2 h3 h4
    rw [List.foldl_cons]
    have h1' := addToGroups_entries acc done o h1 (h3 o.meshKey) h2
    have h2' := addToGroups_nodup acc o h2
    have h3' : ∀ k, k ∉ (addToGroups acc o).map Prod.fst →
        (done ++ [o]).filter (fun x => x.meshKey == k) = [] := by
      intro k hk
      have hkacc : k ∉ acc.map Prod.fst := by
        intro hmem
        apply hk
        rw [addToGroups_keys]
        by_cases hmem2 : o.meshKey ∈ acc.map Prod.fst
        · rw [if_pos hmem2]
          exact hmem
        · rw [if_neg hmem2]
          exact List.mem_append_left _ hmem
      have hko : k ≠ o.meshKey := by
        intro hcontra
        apply hk
        rw [addToGroups_keys, hcontra]
        by_cases hmem2 : o.meshKey ∈ acc.map Prod.fst
        · rw [if_pos hmem2]
          exact hmem2
        · rw [if_neg hmem2]
          exact List.mem_append_right _ (List.mem_singleton_self _)
      have hbeq : (o.meshKey == k) = false := by
        simpa using Ne.symm hko
      rw [List.filter_append, h3 k hkacc]
      simp [List.filter_cons, hbeq]
    have h4' := addToGroups_ne_nil acc o h4
    have hres := ih (addToGroups acc o) (done ++ [o]) h1' h2' h3' h4'
    simpa [List.append_assoc] using hres

lemma groups_by_mesh_entries (objs : List Obj) :
    (∀ e ∈ (objs.filter fun o => o.isMesh).foldl addToGroups [],
      e.2 = (objs.filter fun o => o.isMesh).filter
        fun x => x.meshKey == e.1) ∧
    (((objs.filter fun o => o.isMesh).foldl addToGroups []).map
      Prod.fst).Nodup ∧
    (∀ k, k ∉ ((objs.filter fun o => o.isMesh).foldl addToGroups []).map
        Prod.fst →
      (objs.filter fun o => o.isMesh).filter
        (fun x => x.meshKey == k) = []) ∧
    (∀ e ∈ (objs.filter fun o => o.isMesh).foldl addToGroups [], e.2 ≠ []) := by
  have hres := groupsAssoc_spec (objs.filter fun o => o.isMesh) [] []
    (by simp) (by simp) (by simp) (by simp)
  simpa using hres

lemma pickRep_mem {g : List Obj} (h : g ≠ []) : pickRep g ∈ g := by
  rw [pickRep]
  cases hf : g.find? fun o => o.mode == Mode.EDIT with
  | some o => exact List.mem_of_find?_eq_some hf
  | none =>
    cases g with
    | nil => exact absurd rfl h
    | cons x xs => exact List.mem_cons_self _ _

lemma pickRep_edit {g : List Obj} (o' : Obj) (ho' : o' ∈ g)
    (hmode : o'.mode = Mode.EDIT) : (pickRep g).mode = Mode.EDIT := by
  rw [pickRep]
  cases hf : g.find? fun o => o.mode == Mode.EDIT with
  | some o =>
    have := List.find?_some hf
    show o.mode = Mode.EDIT
    simpa using this
  | none =>
    have := List.find?_eq_none.mp hf o' ho'
    simp [hmode] at this

lemma filter_key_singleton {l : List (ℕ × List Obj)} {e : ℕ × List Obj}
    (hnd : (l.map Prod.fst).Nodup) (he : e ∈ l) :
    l.filter (fun x => x.1 == e.1) = [e] := by
  induction l with
  | nil => simp at he
  | cons hd tl ih =>
    rcases List.mem_cons.mp he with rfl | he
    · rw [List.filter_cons, if_pos (by simp)]
      have hnin : e.1 ∉ tl.map Prod.fst := (List.nodup_cons.mp hnd).1
      have htl : tl.filter (fun x => x.1 == e.1) = [] := by
        rw [List.filter_eq_nil_iff]
        intro x hx
        simp only [beq_iff_eq]
        intro hx1
        exact hnin (hx1 ▸ List.mem_map.mpr ⟨x, hx, rfl⟩)
      rw [htl]
    · have hnin : hd.1 ∉ tl.map Prod.fst := (List.nodup_cons.mp hnd).1
      rw [List.filter_cons, if_neg (by
        simp only [beq_iff_eq]
        intro h
        exact hnin (h ▸ List.mem_map.mpr ⟨e, he, rfl⟩))]
      exact ih (List.nodup_cons.mp hnd).2 he

/-- C6: for the selected mesh objects sharing one mesh-data identity `k`,
exactly one representative appears among the objects `execute` processes
(`executeReps`); it is the representative picked from the identity's group
(the first edit-mode member if one exists, else the first member), it belongs
to that group, and it is in edit mode whenever any group member is. -/
theorem dedup_one_rep_per_mesh (objs : List Obj) (k : ℕ)
    (hk : k ∈ (objs.filter fun o => o.isMesh).map fun o => o.meshKey) :
    ((executeReps objs).filter fun o => o.meshKey == k)
      = [pickRep (((objs.filter fun o => o.isMesh)).filter
          fun o => o.meshKey == k)] ∧
    ((executeReps objs).filter fun o => o.meshKey == k).length = 1 ∧
    (pickRep (((objs.filter fun o => o.isMesh)).filter
        fun o => o.meshKey == k)
      ∈ ((objs.filter fun o => o.isMesh)).filter fun o => o.meshKey == k) ∧
    (∀ o' ∈ ((objs.filter fun o => o.isMesh)).filter
        fun o => o.meshKey == k,
      o'.mode = Mode.EDIT →
      (pickRep (((objs.filter fun o => o.isMesh)).filter
        fun o => o.meshKey == k)).mode = Mode.EDIT) := by
  obtain ⟨hga1, hga2, hga3, hga4⟩ := groups_by_mesh_entries objs
  set sel := objs.filter fun o => o.isMesh with hsel
  set ga := sel.foldl addToGroups [] with hga
  have hfne : sel.filter (fun o => o.meshKey == k) ≠ [] := by
    obtain ⟨o0, ho0, hko⟩ := List.mem_map.mp hk
    exact List.ne_nil_of_mem
      (List.mem_filter.mpr ⟨ho0, by simp [hko]⟩)
  have hkga : k ∈ ga.map Prod.fst := by
    by_contra hcontra
    exact hfne (hga3 k hcontra)
  obtain ⟨e, he, hek⟩ := List.mem_map.mp hkga
  have hgroup : e.2 = sel.filter fun o => o.meshKey == k := by
    rw [hga1 e he, hek]
  have hrepkey : ∀ e' ∈ ga, (pickRep e'.2).meshKey = e'.1 := by
    intro e' he'
    have hmem := pickRep_mem (hga4 e' he')
    have hmem2 : pickRep e'.2 ∈ sel.filter fun o => o.meshKey == e'.1 := by
      rw [← hga1 e' he']
      exact hmem
    have := (List.mem_filter.mp hmem2).2
    simpa using this
  have hreps : executeReps objs = ga.map fun e' => pickRep e'.2 := by
    rw [executeReps, _groups_by_mesh, ← hsel, ← hga, List.map_map]
    rfl
  have hfiltermap : ((ga.map fun e' => pickRep e'.2).filter
        fun o => o.meshKey == k)
      = ((ga.filter fun e' => e'.1 == k).map fun e' => pickRep e'.2) := by
    rw [List.filter_map]
    congr 1
    apply List.filter_congr
    intro e' he'
    show ((pickRep e'.2).meshKey == k) = (e'.1 == k)
    rw [hrepkey e' he']
  have hsingle : ga.filter (fun e' => e'.1 == k) = [e] := by
    have := filter_key_singleton hga2 he
    rwa [hek] at this
  have hmain : ((executeReps objs).filter fun o => o.meshKey == k)
      = [pickRep (sel.filter fun o => o.meshKey == k)] := by
    rw [hreps, hfiltermap, hsingle, List.map_singleton, hgroup]
  refine ⟨hmain, by rw [hmain]; rfl, ?_, ?_⟩
  · exact pickRep_mem hfne
  · intro o' ho' hmode
    exact pickRep_edit o' ho' hmode

/-- Two linked-duplicate objects sharing mesh-data identity 7, the second in
edit mode. -/
def objA : Obj := ⟨true, 7, Mode.OBJECT, ⟨[], true⟩⟩

def objB : Obj := ⟨true, 7, Mode.EDIT, ⟨[], true⟩⟩

/-- Witness for C6 on the two linked duplicates `objA`, `objB`: exactly one
representative with key 7 is processed, and it is the edit-mode member. -/
theorem dedup_one_rep_per_mesh_witness :
    (7 ∈ ([objA, objB].filter fun o => o.isMesh).map fun o => o.meshKey) ∧
    (((executeReps [objA, objB]).filter fun o => o.meshKey == 7)
        = [pickRep ((([objA, objB].filter fun o => o.isMesh)).filter
            fun o => o.meshKey == 7)] ∧
      ((executeReps [objA, objB]).filter fun o => o.meshKey == 7).length = 1 ∧
      (pickRep ((([objA, objB].filter fun o => o.isMesh)).filter
          fun o => o.meshKey == 7)
        ∈ (([objA, objB].filter fun o => o.isMesh)).filter
            fun o => o.meshKey == 7) ∧
      (∀ o' ∈ (([objA, objB].filter fun o => o.isMesh)).filter
          fun o => o.meshKey == 7,
        o'.mode = Mode.EDIT →
        (pickRep ((([objA, objB].filter fun o => o.isMesh)).filter
          fun o => o.meshKey == 7)).mode = Mode.EDIT)) :=
  ⟨by decide, dedup_one_rep_per_mesh [objA, objB] 7 (by decide)⟩

lemma align_islands_error (bm : BMesh ℝ) (r : Bool)
    (hUV : bm.hasUV = false) :
    _align_islands_in_bmesh bm r = Except.error "No active UV layer" := by
  rw [_align_islands_in_bmesh]
  simp [_active_uv_layer, hUV, Bind.bind, Except.bind]

lemma process_object_error (o : Obj) (b : Bool) (hm : o.isMesh = true)
    (hUV : o.data.hasUV = false) :
    process_object o b = Except.error "No active UV layer" := by
  rw [process_object]
  rw [if_neg (by simp [hm])]
  by_cases hE : (o.mode == Mode.EDIT) = true
  · rw [if_pos hE]
    exact align_islands_error o.data true hUV
  · rw [if_neg hE]
    exact align_islands_error o.data false hUV

lemma foldlM_error {β : Type} (step : β → List Obj → Except String β)
    (l : List (List Obj)) (g : List Obj) (hg : g ∈ l)
    (herr : ∀ acc, ∃ e, step acc g = Except.error e) :
    ∀ (acc : β) (r : β), l.foldlM step acc ≠ Except.ok r := by
  induction l with
  | nil => simp at hg
  | cons h t ih =>
    intro acc r hok
    rw [List.foldlM_cons] at hok
    cases hstep : step acc h with
    | error e =>
      rw [hstep] at hok
      simp [Bind.bind, Except.bind] at hok
    | ok acc' =>
      rw [hstep] at hok
      have hok' : t.foldlM step acc' = Except.ok r := by
        simpa [Bind.bind, Except.bind] using hok
      rcases List.mem_cons.mp hg with rfl | hg'
      · obtain ⟨e, he⟩ := herr acc
        rw [he] at hstep
        cases hstep
      · exact ih hg' acc' r hok'

/-- C2 (amended): when any representative object processed by the operator
lacks an active UV layer, the whole invocation fails with the propagated
`RuntimeError` — it never completes with a summary; the other selected meshes
are not processed independently of the failure. -/
theorem execute_fails_on_missing_uv (objs : List Obj) (o : Obj)
    (ho : o ∈ executeReps objs) (hUV : o.data.hasUV = false) :
    ∀ r : ℕ × ℕ, execute objs ≠ Except.ok r := by
  intro r hok
  rw [execute] at hok
  by_cases hE : (objs.filter fun o => o.isMesh).isEmpty
  · have hnil : (objs.filter fun o => o.isMesh) = [] :=
      List.isEmpty_iff.mp hE
    have hreps : executeReps objs = [] := by
      rw [executeReps, _groups_by_mesh, hnil]
      rfl
    rw [hreps] at ho
    simp at ho
  · rw [if_neg hE] at hok
    obtain ⟨hga1, _, _, hga4⟩ := groups_by_mesh_entries objs
    have hgg : _groups_by_mesh (objs.filter fun o => o.isMesh)
        = _groups_by_mesh objs := by
      rw [_groups_by_mesh, _groups_by_mesh, List.filter_filter]
      simp
    rw [hgg] at hok
    rcases List.mem_map.mp
      (show o ∈ (_groups_by_mesh objs).map pickRep from ho) with ⟨g, hg, hpick⟩
    rcases List.mem_map.mp (show g ∈ ((objs.filter fun o => o.isMesh).foldl
        addToGroups []).map Prod.snd from hg) with ⟨e, he, hsnd⟩
    have hgne : g ≠ [] := by
      rw [← hsnd]
      exact hga4 e he
    have homesh : o.isMesh = true := by
      have hmem : o ∈ g := hpick ▸ pickRep_mem hgne
      have : o ∈ objs.filter fun o => o.isMesh := by
        have hgsub : g = (objs.filter fun o => o.isMesh).filter
            fun x => x.meshKey == e.1 := by
          rw [← hsnd]
          exact hga1 e he
        rw [hgsub] at hmem
        exact (List.mem_filter.mp hmem).1
      simpa using (List.mem_filter.mp this).2
    refine foldlM_error _ (_groups_by_mesh objs) g hg ?_ (0, 0) r hok
    intro acc
    refine ⟨"No active UV layer", ?_⟩
    rw [hpick]
    show (do
      let c ← process_object o (o.mode == Mode.EDIT)
      pure (acc.1 + 1, acc.2 + c) : Except String (ℕ × ℕ))
        = Except.error "No active UV layer"
    rw [process_object_error o _ homesh hUV]
    rfl

/-- A selected mesh object whose mesh data lacks an active UV layer. -/
def objNoUV : Obj := ⟨true, 1, Mode.OBJECT, ⟨[], false⟩⟩

/-- A second selected mesh object (distinct mesh data) with a UV layer. -/
def objGood : Obj := ⟨true, 2, Mode.OBJECT, ⟨[], true⟩⟩

/-- Counterexample to C2: with two selected meshes, the first lacking an
active UV layer, the invocation returns the propagated error — the mesh is not
skipped and no summary is produced for the rest of the batch. -/
theorem execute_missing_uv_counterexample :
    execute [objNoUV, objGood] = Except.error "No active UV layer" := rfl

/-- Witness for the amended C2 on the concrete batch
`[objNoUV, objGood]`. -/
theorem execute_fails_on_missing_uv_witness :
    objNoUV ∈ executeReps [objNoUV, objGood] ∧
    objNoUV.data.hasUV = false ∧
    ∀ r : ℕ × ℕ, execute [objNoUV, objGood] ≠ Except.ok r :=
  ⟨show objNoUV ∈ [objNoUV, objGood] from List.mem_cons_self _ _, rfl,
    execute_fails_on_missing_uv [objNoUV, objGood] objNoUV
      (show objNoUV ∈ [objNoUV, objGood] from List.mem_cons_self _ _) rfl⟩

end AlignUV
